import Mathlib

/-!
# Column summary statistics (`scripts/get_col_summary.cpp`)

A shallow embedding of the per-day statistics accumulator of
`get_col_summary.cpp` and of the ordered set that indexes it.

Modelling conventions:

* `double` values are exact rationals (`ℚ`): rounding is not modelled, the
  statements are about the arithmetic the code performs, taken exactly.  The
  one effect of the finite range that the program can observe is kept: the
  extraction of a literal that rounds to infinity stores `±DBL_MAX` and sets
  the fail bit.
* `int` values are Lean integers; signed overflow is undefined behaviour in
  C++, so the model describes days and counts inside the `int` range.
* `std::set<DayStats>` is the list of its elements in iteration order.  The
  comparator only looks at `day`, so a well-formed set is a list whose days
  are strictly ascending (`StatSet.WF`).
* `std::sqrt` is a library function outside this file and is passed to
  `sd` and `ci` as a parameter `sqrt : ℚ → K`.  Its results live in a field
  `K`: `ℚ` where only rational roots occur, `ℝ` in general.
* `is >> x` follows the formatted extraction of libstdc++ in the classic
  locale (the header of the program names g++): a failed stream ignores
  further extractions, a failed conversion stores 0.
* `aggregate` declares `day` and `value` without initialiser; what they hold
  before the first extraction is given by the parameters `day0`, `value0`.
* The tokens of a line are described through the extraction itself: a token
  is a text that one extraction reads successfully and consumes entirely
  (`dayToken`, `Field.ok`); a line is such tokens joined by whitespace.
-/

namespace ColSummary

/-! ## Definitions -/

/-- The critical value `const double z = 2.403`. -/
def z : ℚ := 2403 / 1000

/-- `std::min(a, b)`: returns `b` when `b < a`, otherwise `a`. -/
def stdMin (a b : ℚ) : ℚ := if b < a then b else a

/-- `std::max(a, b)`: returns `b` when `a < b`, otherwise `a`. -/
def stdMax (a b : ℚ) : ℚ := if a < b then b else a

/-- The class `DayStats`, fields in declaration order. -/
structure DayStats where
  day : Int
  sum : ℚ
  mean : ℚ
  var : ℚ
  count : Int
  min : ℚ
  max : ℚ
deriving DecidableEq, Repr

namespace DayStats

/-- The constructor `DayStats(int day, double value = 0)`; the default
argument is written out at the call sites (`ctor day 0`). -/
def ctor (day : Int) (value : ℚ) : DayStats :=
  { day := day, sum := value, mean := value, var := 0, count := 1,
    min := value, max := value }

/-- `DayStats::operator+(double value)`: a temporary `ret` is built by
`DayStats ret(day)` and its fields are then assigned one by one, in the
order of the source. -/
def add (self : DayStats) (value : ℚ) : DayStats :=
  let delta : ℚ := value - self.mean
  let ret : DayStats := ctor self.day 0
  let ret : DayStats := { ret with count := self.count + 1 }
  let ret : DayStats := { ret with sum := self.sum + value }
  let ret : DayStats := { ret with mean := self.mean + delta / (ret.count : ℚ) }
  let ret : DayStats := { ret with var := self.var + delta * (value - ret.mean) }
  let ret : DayStats := { ret with min := stdMin self.min value }
  let ret : DayStats := { ret with max := stdMax self.max value }
  ret

/-- `DayStats::operator<`: entries are ordered by `day` alone. -/
def lt (self other : DayStats) : Bool := decide (self.day < other.day)

/-- `DayStats::sd()`, with `std::sqrt` as the parameter `sqrt`, whose results
live in `K`. -/
def sd {K : Type} (sqrt : ℚ → K) (self : DayStats) : K :=
  sqrt (self.var / (self.count : ℚ))

/-- `DayStats::ci()`, with `std::sqrt` as the parameter `sqrt`, whose results
live in the field `K`. -/
def ci {K : Type} [DivisionRing K] (sqrt : ℚ → K) (self : DayStats) : K :=
  (((z : ℚ) : K) * self.sd sqrt) / sqrt (self.count : ℚ)

/-- The record obtained from `DayStats(d, v)` by applying `operator+` with
the values of `vs`, first to last. -/
def foldFrom (d : Int) (v : ℚ) (vs : List ℚ) : DayStats :=
  vs.foldl add (ctor d v)

/-- Records that can be built from the two-argument constructor by finitely
many applications of `operator+`. -/
inductive Reachable : DayStats → Prop
  | ctor (d : Int) (v : ℚ) : Reachable (DayStats.ctor d v)
  | add (r : DayStats) (v : ℚ) : Reachable r → Reachable (r.add v)

end DayStats

/-! ### The ordered set `StatSet` -/

/-- `using StatSet = std::set<DayStats>`: the elements in iteration order. -/
abbrev StatSet := List DayStats

namespace StatSet

/-- The representation invariant of `std::set` under `DayStats::operator<`:
days strictly ascending, hence no two entries with the same day. -/
def WF (stats : StatSet) : Prop := stats.Pairwise (fun a b => a.day < b.day)

instance (stats : StatSet) : Decidable (WF stats) := by
  unfold WF
  infer_instance

/-- `std::set::find(key)`: walks to the first entry that is not less than
`key` (the lower bound) and accepts it when `key` is not less than it.  The
iterator is the position together with the entry it points to; `none` is
`end()`. -/
def find : StatSet → DayStats → Option (Nat × DayStats)
  | [], _ => none
  | e :: es, key =>
    if e.lt key then (find es key).map (fun it => (it.1 + 1, it.2))
    else if key.lt e then none
    else some (0, e)

/-- `std::set::insert(x)`: `x` is placed before the first entry greater than
it; nothing is inserted when an equivalent entry is met. -/
def insert : StatSet → DayStats → StatSet
  | [], x => [x]
  | e :: es, x =>
    if x.lt e then x :: e :: es
    else if e.lt x then e :: insert es x
    else e :: es

/-- `std::set::erase(it)`: removes the entry at the iterator position. -/
def erase (stats : StatSet) (it : Nat × DayStats) : StatSet :=
  stats.eraseIdx it.1

end StatSet

/-! ### Formatted extraction from `std::istringstream` -/

/-- The part of a `std::istringstream` the program depends on: the unread
characters and the fail bit.  End of input is an empty `buf`. -/
structure IStream where
  buf : List Char
  fail : Bool
deriving DecidableEq, Repr

/-- Whitespace of the classic locale: space, `\t`, `\n`, `\v`, `\f`, `\r`. -/
def isSpace (c : Char) : Bool :=
  c.toNat == 32 || (9 ≤ c.toNat && c.toNat ≤ 13)

/-- The value of a run of decimal digits. -/
def digitsVal (ds : List Char) : Nat :=
  ds.foldl (fun acc c => acc * 10 + (c.toNat - 48)) 0

/-- An optional leading `+` or `-`: whether it was `-`, and what follows. -/
def readSign : List Char → Bool × List Char
  | '-' :: t => (true, t)
  | '+' :: t => (false, t)
  | b => (false, b)

/-- `INT_MIN` and `INT_MAX` of a 32-bit `int`. -/
def intMin : Int := -2147483648

def intMax : Int := 2147483647

/-- `DBL_MAX`, the largest finite `double`: `2^1024 - 2^971`. -/
def dblMax : ℚ := ((2 ^ 1024 - 2 ^ 971 : Nat) : ℚ)

/-- The least magnitude that rounds to infinity (to nearest, ties to even):
the midpoint `2^1024 - 2^970` of `DBL_MAX` and `2^1024`. -/
def dblOverflow : ℚ := ((2 ^ 1024 - 2 ^ 970 : Nat) : ℚ)

/-- `is >> n` for `int n` holding `x`.  A stream that already failed leaves
`n` alone; so does one that reaches the end while skipping whitespace, and it
sets the fail bit.  Otherwise a sign and decimal digits are consumed: no digit
stores 0 and fails, a value outside the `int` range stores the nearest bound
and fails. -/
def extractInt (is : IStream) (x : Int) : IStream × Int :=
  if is.fail then (is, x)
  else
    let b := is.buf.dropWhile isSpace
    if b.isEmpty then ({ buf := [], fail := true }, x)
    else
      let s := readSign b
      let ds := s.2.takeWhile Char.isDigit
      let rest := s.2.dropWhile Char.isDigit
      if ds.isEmpty then ({ buf := rest, fail := true }, 0)
      else
        let n : Int := (digitsVal ds : Int)
        let v : Int := if s.1 then -n else n
        if v < intMin then ({ buf := rest, fail := true }, intMin)
        else if intMax < v then ({ buf := rest, fail := true }, intMax)
        else ({ buf := rest, fail := false }, v)

/-- The exponent part of a floating literal, read after a mantissa with at
least one digit: absent (exponent 0), or `e`/`E`, an optional sign and
digits; `none` when the digits are missing, which makes the conversion
fail. -/
def readExponent : List Char → Option Int × List Char
  | [] => (some 0, [])
  | c :: t =>
    if c = 'e' ∨ c = 'E' then
      let s := readSign t
      let ds := s.2.takeWhile Char.isDigit
      let rest := s.2.dropWhile Char.isDigit
      if ds.isEmpty then (none, rest)
      else (some (if s.1 then -(digitsVal ds : Int) else (digitsVal ds : Int)), rest)
    else (some 0, c :: t)

/-- `is >> v` for `double v` holding `x`.  A stream that already failed, or
that reaches the end while skipping whitespace, leaves `v` alone.  Otherwise
a sign, digits, an optional `.` with digits and an optional exponent are
consumed; a text with no mantissa digit, or with an `e` and no exponent
digit, stores 0 and fails; a number whose magnitude rounds to infinity
stores `DBL_MAX` with the sign of the text and fails. -/
def extractDouble (is : IStream) (x : ℚ) : IStream × ℚ :=
  if is.fail then (is, x)
  else
    let b := is.buf.dropWhile isSpace
    if b.isEmpty then ({ buf := [], fail := true }, x)
    else
      let s := readSign b
      let ip := s.2.takeWhile Char.isDigit
      let b2 := s.2.dropWhile Char.isDigit
      let b3 := match b2 with
        | '.' :: t => t
        | _ => b2
      let fp := match b2 with
        | '.' :: _ => b3.takeWhile Char.isDigit
        | _ => []
      let b4 := match b2 with
        | '.' :: _ => b3.dropWhile Char.isDigit
        | _ => b2
      if ip.isEmpty && fp.isEmpty then ({ buf := b4, fail := true }, 0)
      else
        let ex := readExponent b4
        match ex.1 with
        | none => ({ buf := ex.2, fail := true }, 0)
        | some e =>
          let m : ℚ := (digitsVal (ip ++ fp) : ℚ) / (10 : ℚ) ^ fp.length
          let a : ℚ := m * (10 : ℚ) ^ e
          if dblOverflow ≤ a then
            ({ buf := ex.2, fail := true }, if s.1 then -dblMax else dblMax)
          else ({ buf := ex.2, fail := false }, if s.1 then -a else a)

/-- The loop `for (int col = 0; (col < column); col++) is >> value;` for
`n` remaining iterations. -/
def skipColumns : Nat → IStream → ℚ → IStream × ℚ
  | 0, is, value => (is, value)
  | n + 1, is, value =>
    let r := extractDouble is value
    skipColumns n r.1 r.2

/-- Lines 96 to 104 of `aggregate`: the stream over `line`, the extraction of
`day` and the column loop.  `day` and `value` are declared without an
initialiser; `day0` and `value0` stand for what they hold before the first
extraction. -/
def parseState (line : String) (column : Int) (day0 : Int) (value0 : ℚ) :
    IStream × Int × ℚ :=
  let is : IStream := { buf := line.toList, fail := false }
  let r := extractInt is day0
  let q := skipColumns column.toNat r.1 value0
  (q.1, r.2, q.2)

/-- The pair `(day, value)` that `aggregate` goes on to fold. -/
def parseLine (line : String) (column : Int) (day0 : Int) (value0 : ℚ) : Int × ℚ :=
  (parseState line column day0 value0).2

/-! ### `aggregate`, `print`, `processFile` -/

/-- Lines 105 to 115 of `aggregate`: find the entry of `day` and either
insert a fresh one or erase it and insert its successor. -/
def aggregateEntry (stats : StatSet) (day : Int) (value : ℚ) : StatSet :=
  match StatSet.find stats (DayStats.ctor day 0) with
  | none => StatSet.insert stats (DayStats.ctor day value)
  | some it =>
    let stat := it.2.add value
    StatSet.insert (StatSet.erase stats it) stat

/-- `aggregate(stats, line, column)`: parse the line, then update the set. -/
def aggregate (stats : StatSet) (line : String) (column : Int)
    (day0 : Int) (value0 : ℚ) : StatSet :=
  let p := parseLine line column day0 value0
  aggregateEntry stats p.1 p.2

/-- One call of `aggregate`: its arguments and the prior contents of its two
uninitialised locals. -/
structure Call where
  line : String
  column : Int
  day0 : Int
  value0 : ℚ

/-- A finite sequence of `aggregate` calls on the same set, first to last. -/
def aggregateAll (stats : StatSet) (calls : List Call) : StatSet :=
  calls.foldl (fun s c => aggregate s c.line c.column c.day0 c.value0) stats

/-- What is written to a `std::ostream`, piece by piece.  Numbers are kept
as values: their decimal rendering is not modelled. -/
inductive Item where
  | text (s : String)
  | int (n : Int)
  | dbl (x : ℚ)
  | endl
deriving DecidableEq, Repr

/-- `operator<<(std::ostream&, const DayStats&)`. -/
def operatorOut (sqrt : ℚ → ℚ) (ds : DayStats) : List Item :=
  let sep : String := ", "
  [Item.int ds.day, Item.text sep, Item.int ds.count, Item.text sep,
   Item.dbl ds.mean, Item.text sep, Item.dbl (ds.sd sqrt), Item.text sep,
   Item.dbl ds.min, Item.text sep, Item.dbl ds.max, Item.text sep,
   Item.dbl ds.sum, Item.text sep, Item.dbl (ds.ci sqrt)]

/-- The loop of `print`: the entries for which `os << entry` runs, in
iteration order. -/
def printedEntries : StatSet → Int → List DayStats
  | [], _ => []
  | entry :: rest, startDay =>
    if entry.day ≥ startDay then entry :: printedEntries rest startDay
    else printedEntries rest startDay

/-- `print(stats, startDay, os)`: the header, then each printed entry
followed by `std::endl`. -/
def print (sqrt : ℚ → ℚ) (stats : StatSet) (startDay : Int) : List Item :=
  Item.text "#day, count, mean, SD, main, max, sum, 95%ci\n" ::
    (printedEntries stats startDay).foldr
      (fun entry os => operatorOut sqrt entry ++ Item.endl :: os) []

/-- The read loop of `processFile` over the lines `std::getline` returns. -/
def readLoop (lines : List String) (column : Int) (day0 : Int) (value0 : ℚ) : StatSet :=
  lines.foldl
    (fun stats line =>
      if line.utf8ByteSize > 10 then aggregate stats line column day0 value0 else stats)
    []

/-- `processFile` for a file that opened: read loop, then `print`. -/
def processFile (sqrt : ℚ → ℚ) (lines : List String) (column : Int) (startDay : Int)
    (day0 : Int) (value0 : ℚ) : List Item :=
  print sqrt (readLoop lines column day0 value0) startDay

/-! ### Specification predicates used in the proofs -/

/-- What a record holds once the values of the non-empty list `l` have been
folded into it, stated without division: the mean through `mean * n = sum`,
`var` as the sum of squares minus `n * mean ^ 2`. -/
structure Summarises (r : DayStats) (l : List ℚ) : Prop where
  pos : 0 < l.length
  count_eq : r.count = (l.length : Int)
  sum_eq : r.sum = l.sum
  mean_eq : r.mean * (l.length : ℚ) = l.sum
  var_eq : r.var = (l.map (fun x => x ^ 2)).sum - (l.length : ℚ) * r.mean ^ 2
  min_mem : r.min ∈ l
  min_le : ∀ x ∈ l, r.min ≤ x
  max_mem : r.max ∈ l
  le_max : ∀ x ∈ l, x ≤ r.max

/-- The effect of `aggregateEntry` on a well-formed set, entry by entry: the
entry of `d` is replaced by its successor, or a fresh entry is placed at the
position that keeps the days ascending. -/
def upsert : StatSet → Int → ℚ → StatSet
  | [], d, v => [DayStats.ctor d v]
  | e :: es, d, v =>
    if e.day < d then e :: upsert es d v
    else if d < e.day then DayStats.ctor d v :: e :: es
    else e.add v :: es

/-! ### Lines as tokens, and the record of a day -/

/-- The entry of `stats` for day `d`: the first one in iteration order, if
any. -/
def entryOf (stats : StatSet) (d : Int) : Option DayStats :=
  stats.find? (fun e => decide (e.day = d))

/-- The values that a sequence of `aggregate` calls folds under day `d`, in
the order of the calls. -/
def valuesOf (calls : List Call) (d : Int) : List ℚ :=
  (calls.filter
    (fun c => decide ((parseLine c.line c.column c.day0 c.value0).1 = d))).map
    (fun c => (parseLine c.line c.column c.day0 c.value0).2)

/-- Folding `v` under day `d` when the day has the record `o`, or none. -/
def foldInto (d : Int) (o : Option DayStats) (v : ℚ) : Option DayStats :=
  match o with
  | none => some (DayStats.ctor d v)
  | some e => some (e.add v)

/-- A remainder of the line at which a token ends: nothing, or text that
starts with whitespace. -/
def tailOk : List Char → Bool
  | [] => true
  | w :: _ => isSpace w

/-- A data field of a line: one whitespace character, the text that follows
it, and the value that `is >> value` reads from that text. -/
structure Field where
  sep : Char
  text : List Char
  value : ℚ

/-- The field is well formed: extraction from `text` alone succeeds with
`value` and consumes the text entirely. -/
def Field.ok (f : Field) : Prop :=
  isSpace f.sep = true
    ∧ extractDouble { buf := f.text, fail := false } 0
        = ({ buf := [], fail := false }, f.value)

instance (f : Field) : Decidable f.ok := by
  unfold Field.ok
  infer_instance

/-- The conversion of `is >> value` fails on the field: its text is not blank,
the fail bit is set and `value` is what the failed conversion stores. -/
def Field.fails (f : Field) : Prop :=
  isSpace f.sep = true ∧ f.text.dropWhile isSpace ≠ []
    ∧ (extractDouble { buf := f.text, fail := false } 0).1.fail = true
    ∧ (extractDouble { buf := f.text, fail := false } 0).2 = f.value

instance (f : Field) : Decidable f.fails := by
  unfold Field.fails
  infer_instance

/-- The text does not start like a number: after blanks and an optional sign
comes the end of the text or a character that is neither a digit nor `.`. -/
def notNumeric (text : List Char) : Bool :=
  match (readSign (text.dropWhile isSpace)).2 with
  | [] => true
  | c :: _ => !(c.isDigit || c == '.')

/-- The field is not numeric: its text is not blank and does not start like
a number; the value a conversion of such a text stores is 0. -/
def Field.bad (f : Field) : Prop :=
  isSpace f.sep = true ∧ f.text.dropWhile isSpace ≠ [] ∧ notNumeric f.text = true
    ∧ f.value = 0

instance (f : Field) : Decidable f.bad := by
  unfold Field.bad
  infer_instance

/-- The text `tok` is an integer token of value `d`: extraction from it alone
succeeds with `d` and consumes it entirely. -/
def dayToken (tok : List Char) (d : Int) : Prop :=
  extractInt { buf := tok, fail := false } 0 = ({ buf := [], fail := false }, d)

instance (tok : List Char) (d : Int) : Decidable (dayToken tok d) := by
  unfold dayToken
  infer_instance

/-- The characters of consecutive fields, followed by `tail`. -/
def fieldsText (fields : List Field) (tail : List Char) : List Char :=
  fields.foldr (fun f acc => f.sep :: (f.text ++ acc)) tail

/-- The record of a day whose folded values are `vs`, first to last: none for
no value, otherwise the constructor on the first value and `operator+` on the
rest. -/
def foldValues (d : Int) : List ℚ → Option DayStats
  | [] => none
  | v :: vs => some (DayStats.foldFrom d v vs)

/-! ## Lemmas on the accumulator -/

namespace DayStats

theorem add_day (r : DayStats) (v : ℚ) : (r.add v).day = r.day := rfl

theorem add_count (r : DayStats) (v : ℚ) : (r.add v).count = r.count + 1 := rfl

theorem add_sum (r : DayStats) (v : ℚ) : (r.add v).sum = r.sum + v := rfl

theorem add_mean (r : DayStats) (v : ℚ) :
    (r.add v).mean = r.mean + (v - r.mean) / ((r.count + 1 : Int) : ℚ) := rfl

theorem add_var (r : DayStats) (v : ℚ) :
    (r.add v).var = r.var + (v - r.mean) * (v - (r.add v).mean) := rfl

theorem add_min (r : DayStats) (v : ℚ) : (r.add v).min = stdMin r.min v := rfl

theorem add_max (r : DayStats) (v : ℚ) : (r.add v).max = stdMax r.max v := rfl

theorem stdMin_eq (a b : ℚ) : stdMin a b = Min.min a b := by
  unfold stdMin
  split_ifs with h
  · exact (min_eq_right h.le).symm
  · exact (min_eq_left (not_lt.mp h)).symm

theorem stdMax_eq (a b : ℚ) : stdMax a b = Max.max a b := by
  unfold stdMax
  split_ifs with h
  · exact (max_eq_right h.le).symm
  · exact (max_eq_left (not_lt.mp h)).symm

theorem sum_sq_dev (l : List ℚ) (m : ℚ) :
    (l.map (fun x => (x - m) ^ 2)).sum
      = (l.map (fun x => x ^ 2)).sum - 2 * m * l.sum + (l.length : ℚ) * m ^ 2 := by
  induction l with
  | nil => simp
  | cons a t ih =>
    simp only [List.map_cons, List.sum_cons, List.length_cons, Nat.cast_succ, ih]
    ring

theorem length_mul_le_sum (l : List ℚ) (a : ℚ) (h : ∀ x ∈ l, a ≤ x) :
    (l.length : ℚ) * a ≤ l.sum := by
  induction l with
  | nil => simp
  | cons b t ih =>
    have hb : a ≤ b := h b (List.mem_cons_self _ _)
    have ht := ih (fun x hx => h x (List.mem_cons_of_mem _ hx))
    simp only [List.sum_cons, List.length_cons, Nat.cast_succ]
    linarith

theorem sum_le_length_mul (l : List ℚ) (a : ℚ) (h : ∀ x ∈ l, x ≤ a) :
    l.sum ≤ (l.length : ℚ) * a := by
  induction l with
  | nil => simp
  | cons b t ih =>
    have hb : b ≤ a := h b (List.mem_cons_self _ _)
    have ht := ih (fun x hx => h x (List.mem_cons_of_mem _ hx))
    simp only [List.sum_cons, List.length_cons, Nat.cast_succ]
    linarith

theorem summarises_ctor (d : Int) (v : ℚ) : Summarises (ctor d v) [v] where
  pos := by simp
  count_eq := by simp [ctor]
  sum_eq := by simp [ctor]
  mean_eq := by simp [ctor]
  var_eq := by simp [ctor]
  min_mem := by simp [ctor]
  min_le := by simp [ctor]
  max_mem := by simp [ctor]
  le_max := by simp [ctor]

theorem summarises_add (r : DayStats) (l : List ℚ) (v : ℚ) (h : Summarises r l) :
    Summarises (r.add v) (l ++ [v]) := by
  have hn : (0 : ℚ) < (l.length : ℚ) := by exact_mod_cast h.pos
  have hc : (((r.count + 1 : Int)) : ℚ) = (l.length : ℚ) + 1 := by
    rw [h.count_eq]; push_cast; ring
  have hne : (l.length : ℚ) + 1 ≠ 0 := by positivity
  have hmean : (r.add v).mean = r.mean + (v - r.mean) / ((l.length : ℚ) + 1) := by
    rw [add_mean, hc]
  refine ⟨by simp, ?_, ?_, ?_, ?_, ?_, ?_, ?_, ?_⟩
  · rw [add_count, h.count_eq]; simp
  · rw [add_sum, h.sum_eq]; simp
  · rw [hmean]
    simp only [List.length_append, List.length_singleton, Nat.cast_add, Nat.cast_one,
      List.sum_append, List.sum_singleton]
    rw [← h.mean_eq]
    field_simp
    ring
  · rw [add_var, hmean, h.var_eq]
    simp only [List.length_append, List.length_singleton, Nat.cast_add, Nat.cast_one,
      List.map_append, List.map_cons, List.map_nil, List.sum_append, List.sum_singleton]
    field_simp
    ring
  · rw [add_min, stdMin_eq]
    rcases min_choice r.min v with hm | hm
    · rw [hm]; exact List.mem_append_left _ h.min_mem
    · rw [hm]; simp
  · intro x hx
    rw [add_min, stdMin_eq]
    rcases List.mem_append.mp hx with hx | hx
    · exact le_trans (min_le_left _ _) (h.min_le x hx)
    · rw [List.mem_singleton.mp hx]; exact min_le_right _ _
  · rw [add_max, stdMax_eq]
    rcases max_choice r.max v with hm | hm
    · rw [hm]; exact List.mem_append_left _ h.max_mem
    · rw [hm]; simp
  · intro x hx
    rw [add_max, stdMax_eq]
    rcases List.mem_append.mp hx with hx | hx
    · exact le_trans (h.le_max x hx) (le_max_left _ _)
    · rw [List.mem_singleton.mp hx]; exact le_max_right _ _

theorem summarises_foldl (vs : List ℚ) :
    ∀ (r : DayStats) (l : List ℚ), Summarises r l → Summarises (vs.foldl add r) (l ++ vs) := by
  induction vs with
  | nil => intro r l h; simpa using h
  | cons a t ih =>
    intro r l h
    have := ih (r.add a) (l ++ [a]) (summarises_add r l a h)
    simpa using this

theorem summarises_foldFrom (d : Int) (v : ℚ) (vs : List ℚ) :
    Summarises (foldFrom d v vs) (v :: vs) := by
  have := summarises_foldl vs (ctor d v) [v] (summarises_ctor d v)
  simpa [foldFrom] using this

theorem summarises_of_reachable (r : DayStats) (h : Reachable r) :
    ∃ l : List ℚ, Summarises r l := by
  induction h with
  | ctor d v => exact ⟨[v], summarises_ctor d v⟩
  | add r v _ ih =>
    obtain ⟨l, hl⟩ := ih
    exact ⟨l ++ [v], summarises_add r l v hl⟩

theorem reachable_foldl (vs : List ℚ) :
    ∀ r : DayStats, Reachable r → Reachable (vs.foldl add r) := by
  induction vs with
  | nil => intro r h; exact h
  | cons a t ih => intro r h; exact ih (r.add a) (Reachable.add r a h)

theorem reachable_foldFrom (d : Int) (v : ℚ) (vs : List ℚ) : Reachable (foldFrom d v vs) :=
  reachable_foldl vs (ctor d v) (Reachable.ctor d v)

theorem summarises_mean_div {r : DayStats} {l : List ℚ} (h : Summarises r l) :
    r.mean = l.sum / (l.length : ℚ) := by
  have hn : (0 : ℚ) < (l.length : ℚ) := by exact_mod_cast h.pos
  rw [eq_div_iff hn.ne']
  exact h.mean_eq

theorem summarises_var_dev {r : DayStats} {l : List ℚ} (h : Summarises r l) :
    r.var = (l.map (fun x => (x - r.mean) ^ 2)).sum := by
  rw [sum_sq_dev, h.var_eq, ← h.mean_eq]
  ring

theorem summarises_var_nonneg {r : DayStats} {l : List ℚ} (h : Summarises r l) :
    0 ≤ r.var := by
  rw [summarises_var_dev h]
  apply List.sum_nonneg
  intro x hx
  obtain ⟨y, _, rfl⟩ := List.mem_map.mp hx
  positivity

end DayStats

open DayStats

/-! ## The accumulator: claims C1 to C6 -/

/-- C1: for every day `d` and every non-empty sequence `v :: vs`, the record
built by `DayStats(d, v)` followed by `operator+` on the values of `vs` in
order has `count` equal to the length, `sum` equal to the sum, `mean` equal to
the sum divided by the length, `min` an element below every element and `max`
an element above every element of the sequence. -/
theorem C1_fold_matches_batch (d : Int) (v : ℚ) (vs : List ℚ) :
    (foldFrom d v vs).count = ((v :: vs).length : Int)
    ∧ (foldFrom d v vs).sum = (v :: vs).sum
    ∧ (foldFrom d v vs).mean = (v :: vs).sum / ((v :: vs).length : ℚ)
    ∧ ((foldFrom d v vs).min ∈ v :: vs ∧ ∀ x ∈ v :: vs, (foldFrom d v vs).min ≤ x)
    ∧ ((foldFrom d v vs).max ∈ v :: vs ∧ ∀ x ∈ v :: vs, x ≤ (foldFrom d v vs).max) := by
  have h := summarises_foldFrom d v vs
  exact ⟨h.count_eq, h.sum_eq, summarises_mean_div h, ⟨h.min_mem, h.min_le⟩,
    ⟨h.max_mem, h.le_max⟩⟩

/-- C2: for every non-empty sequence `v :: vs` folded under one day, the field
`var` is the sum of the squared deviations of the values from the final mean,
and `var / count` is the population variance of the sequence (squared
deviations from the batch mean, divided by the length). -/
theorem C2_var_is_squared_deviation_sum (d : Int) (v : ℚ) (vs : List ℚ) :
    (foldFrom d v vs).var
        = ((v :: vs).map (fun x => (x - (foldFrom d v vs).mean) ^ 2)).sum
    ∧ (foldFrom d v vs).var / ((foldFrom d v vs).count : ℚ)
        = ((v :: vs).map
            (fun x => (x - (v :: vs).sum / ((v :: vs).length : ℚ)) ^ 2)).sum
          / ((v :: vs).length : ℚ) := by
  have h := summarises_foldFrom d v vs
  refine ⟨summarises_var_dev h, ?_⟩
  rw [summarises_var_dev h, summarises_mean_div h, h.count_eq]
  simp

/-- C3: for every record `r` and value `v`, `r + v` has the day of `r`,
`count + 1`, `sum + v`, the Welford mean and `var`, and the running minimum
and maximum; each of the six fields that `DayStats ret(day)` filled with a
placeholder is overwritten.  (For `count = -1` the quotient is the total
division of `ℚ`.) -/
theorem C3_operator_plus_fields (r : DayStats) (v : ℚ) :
    (r.add v).day = r.day
    ∧ (r.add v).count = r.count + 1
    ∧ (r.add v).sum = r.sum + v
    ∧ (r.add v).mean = r.mean + (v - r.mean) / ((r.count + 1 : Int) : ℚ)
    ∧ (r.add v).var = r.var + (v - r.mean) * (v - (r.add v).mean)
    ∧ (r.add v).min = Min.min r.min v
    ∧ (r.add v).max = Max.max r.max v
    ∧ r.add v =
        { day := r.day, sum := r.sum + v,
          mean := r.mean + (v - r.mean) / ((r.count + 1 : Int) : ℚ),
          var := r.var + (v - r.mean)
            * (v - (r.mean + (v - r.mean) / ((r.count + 1 : Int) : ℚ))),
          count := r.count + 1, min := Min.min r.min v, max := Max.max r.max v } := by
  refine ⟨rfl, rfl, rfl, rfl, rfl, ?_, ?_, ?_⟩
  · rw [add_min, stdMin_eq]
  · rw [add_max, stdMax_eq]
  · rw [← stdMin_eq, ← stdMax_eq]; rfl

/-- C4: every record reachable from the constructor by `operator+` has
`var ≥ 0` and `var / count ≥ 0`; reachable records include every intermediate
one, so this holds after each fold. -/
theorem C4_var_nonneg (r : DayStats) (h : Reachable r) :
    0 ≤ r.var ∧ 0 ≤ r.var / (r.count : ℚ) := by
  obtain ⟨l, hl⟩ := summarises_of_reachable r h
  have hv := summarises_var_nonneg hl
  refine ⟨hv, div_nonneg hv ?_⟩
  rw [hl.count_eq]
  exact_mod_cast Nat.zero_le _

/-- Witness for C4: the record of `10000` followed by `9999`. -/
theorem C4_var_nonneg_witness :
    Reachable ((ctor 0 10000).add 9999)
    ∧ 0 ≤ ((ctor 0 10000).add 9999).var
    ∧ 0 ≤ ((ctor 0 10000).add 9999).var / (((ctor 0 10000).add 9999).count : ℚ) :=
  ⟨Reachable.add _ _ (Reachable.ctor 0 10000),
    C4_var_nonneg _ (Reachable.add _ _ (Reachable.ctor 0 10000))⟩

/-- C5: two non-empty sequences that are permutations of each other fold,
under the same day, to records with equal `mean`, `var / count`, `count`,
`sum`, `min` and `max`. -/
theorem C5_fold_permutation_invariant (d : Int) (v w : ℚ) (vs ws : List ℚ)
    (h : (v :: vs).Perm (w :: ws)) :
    (foldFrom d v vs).mean = (foldFrom d w ws).mean
    ∧ (foldFrom d v vs).var / ((foldFrom d v vs).count : ℚ)
        = (foldFrom d w ws).var / ((foldFrom d w ws).count : ℚ)
    ∧ (foldFrom d v vs).count = (foldFrom d w ws).count
    ∧ (foldFrom d v vs).sum = (foldFrom d w ws).sum
    ∧ (foldFrom d v vs).min = (foldFrom d w ws).min
    ∧ (foldFrom d v vs).max = (foldFrom d w ws).max := by
  have h1 := summarises_foldFrom d v vs
  have h2 := summarises_foldFrom d w ws
  have hlen : (v :: vs).length = (w :: ws).length := h.length_eq
  have hsum : (v :: vs).sum = (w :: ws).sum := h.sum_eq
  have hmean : (foldFrom d v vs).mean = (foldFrom d w ws).mean := by
    rw [summarises_mean_div h1, summarises_mean_div h2, hlen, hsum]
  have hcount : (foldFrom d v vs).count = (foldFrom d w ws).count := by
    rw [h1.count_eq, h2.count_eq, hlen]
  have hvar : (foldFrom d v vs).var = (foldFrom d w ws).var := by
    rw [summarises_var_dev h1, summarises_var_dev h2, hmean]
    exact (h.map _).sum_eq
  refine ⟨hmean, by rw [hvar, hcount], hcount, by rw [h1.sum_eq, h2.sum_eq, hsum], ?_, ?_⟩
  · exact le_antisymm (h1.min_le _ (h.symm.subset h2.min_mem))
      (h2.min_le _ (h.subset h1.min_mem))
  · exact le_antisymm (h2.le_max _ (h.subset h1.max_mem))
      (h1.le_max _ (h.symm.subset h2.max_mem))

/-- C6: every record reachable from the constructor by `operator+` has
`min ≤ mean ≤ max`. -/
theorem C6_min_le_mean_le_max (r : DayStats) (h : Reachable r) :
    r.min ≤ r.mean ∧ r.mean ≤ r.max := by
  obtain ⟨l, hl⟩ := summarises_of_reachable r h
  have hn : (0 : ℚ) < (l.length : ℚ) := by exact_mod_cast hl.pos
  have h1 := length_mul_le_sum l r.min hl.min_le
  have h2 := sum_le_length_mul l r.max hl.le_max
  rw [← hl.mean_eq] at h1 h2
  constructor
  · by_contra hc
    have := mul_lt_mul_of_pos_right (not_le.mp hc) hn
    linarith
  · by_contra hc
    have := mul_lt_mul_of_pos_right (not_le.mp hc) hn
    linarith

/-- Witness for C6: the record of `1`, `2`, `4` under day 3. -/
theorem C6_min_le_mean_le_max_witness :
    (((ctor 3 1).add 2).add 4).min ≤ (((ctor 3 1).add 2).add 4).mean
    ∧ (((ctor 3 1).add 2).add 4).mean ≤ (((ctor 3 1).add 2).add 4).max :=
  C6_min_le_mean_le_max _ (Reachable.add _ _ (Reachable.add _ _ (Reachable.ctor 3 1)))

/-- Witness for C5: `1, 2, 4` and `4, 1, 2` under day 3. -/
theorem C5_fold_permutation_invariant_witness :
    (foldFrom 3 1 [2, 4]).mean = (foldFrom 3 4 [1, 2]).mean
    ∧ (foldFrom 3 1 [2, 4]).var / ((foldFrom 3 1 [2, 4]).count : ℚ)
        = (foldFrom 3 4 [1, 2]).var / ((foldFrom 3 4 [1, 2]).count : ℚ)
    ∧ (foldFrom 3 1 [2, 4]).count = (foldFrom 3 4 [1, 2]).count
    ∧ (foldFrom 3 1 [2, 4]).sum = (foldFrom 3 4 [1, 2]).sum
    ∧ (foldFrom 3 1 [2, 4]).min = (foldFrom 3 4 [1, 2]).min
    ∧ (foldFrom 3 1 [2, 4]).max = (foldFrom 3 4 [1, 2]).max :=
  C5_fold_permutation_invariant 3 1 4 [2, 4] [1, 2]
    ((List.Perm.cons 1 (List.Perm.swap 4 2 [])).trans (List.Perm.swap 4 1 [2]))

/-! ## Lemmas on the ordered set -/

theorem find_some_day (stats : StatSet) (key : DayStats) :
    ∀ it : Nat × DayStats, StatSet.find stats key = some it →
      it.2.day = key.day ∧ it.2 ∈ stats := by
  induction stats with
  | nil => intro it h; simp [StatSet.find] at h
  | cons e es ih =>
    intro it h
    unfold StatSet.find at h
    by_cases h1 : e.day < key.day
    · simp only [lt, h1, decide_True, if_true, Option.map_eq_some'] at h
      obtain ⟨jt, hj, rfl⟩ := h
      obtain ⟨hd, hm⟩ := ih jt hj
      exact ⟨hd, List.mem_cons_of_mem _ hm⟩
    · by_cases h2 : key.day < e.day
      · simp [lt, h1, h2] at h
      · simp only [lt, h1, h2, decide_False, Bool.false_eq_true, if_false,
          Option.some.injEq] at h
        subst h
        exact ⟨by simp only; omega, List.mem_cons_self _ _⟩

theorem find_none_of_absent (stats : StatSet) (key : DayStats)
    (h : ∀ e ∈ stats, e.day ≠ key.day) : StatSet.find stats key = none := by
  cases hf : StatSet.find stats key with
  | none => rfl
  | some it =>
    obtain ⟨hd, hm⟩ := find_some_day stats key it hf
    exact absurd hd (h it.2 hm)

theorem aggregateEntry_cons_lt (e : DayStats) (es : StatSet) (d : Int) (v : ℚ)
    (h : e.day < d) : aggregateEntry (e :: es) d v = e :: aggregateEntry es d v := by
  have hn : ¬ d < e.day := by omega
  have hfind : StatSet.find (e :: es) (ctor d 0)
      = (StatSet.find es (ctor d 0)).map (fun it => (it.1 + 1, it.2)) := by
    have hk : e.lt (ctor d 0) = true := by simp [lt, ctor, h]
    simp only [StatSet.find, hk, if_true]
  unfold aggregateEntry
  rw [hfind]
  cases hf : StatSet.find es (ctor d 0) with
  | none =>
    simp [StatSet.insert, lt, ctor, h, hn]
  | some it =>
    obtain ⟨hd, _⟩ := find_some_day es (ctor d 0) it hf
    have hd2 : it.2.day = d := hd
    simp [StatSet.insert, StatSet.erase, lt, h, hn, add_day, hd2]

theorem aggregateEntry_cons_gt (e : DayStats) (es : StatSet) (d : Int) (v : ℚ)
    (h : d < e.day) : aggregateEntry (e :: es) d v = ctor d v :: e :: es := by
  have hn : ¬ e.day < d := by omega
  simp [aggregateEntry, StatSet.find, StatSet.insert, lt, ctor, h, hn]

theorem aggregateEntry_cons_eq (e : DayStats) (es : StatSet) (d : Int) (v : ℚ)
    (h : e.day = d) (hes : ∀ x ∈ es, e.day < x.day) :
    aggregateEntry (e :: es) d v = e.add v :: es := by
  subst h
  cases es with
  | nil => simp [aggregateEntry, StatSet.find, StatSet.insert, StatSet.erase, lt, ctor]
  | cons f fs =>
    have hf : e.day < f.day := hes f (List.mem_cons_self _ _)
    simp [aggregateEntry, StatSet.find, StatSet.insert, StatSet.erase, lt, ctor, add_day, hf]

theorem aggregateEntry_eq_upsert (stats : StatSet) (d : Int) (v : ℚ)
    (h : StatSet.WF stats) : aggregateEntry stats d v = upsert stats d v := by
  induction stats with
  | nil => simp [aggregateEntry, StatSet.find, StatSet.insert, upsert]
  | cons e es ih =>
    have hw := List.pairwise_cons.mp h
    unfold upsert
    by_cases h1 : e.day < d
    · rw [aggregateEntry_cons_lt e es d v h1, ih hw.2, if_pos h1]
    · by_cases h2 : d < e.day
      · rw [aggregateEntry_cons_gt e es d v h2, if_neg h1, if_pos h2]
      · rw [aggregateEntry_cons_eq e es d v (by omega) hw.1, if_neg h1, if_neg h2]

theorem mem_upsert (stats : StatSet) (d : Int) (v : ℚ) :
    ∀ x ∈ upsert stats d v, x.day = d ∨ x ∈ stats := by
  induction stats with
  | nil => intro x hx; left; simp [upsert] at hx; rw [hx]; rfl
  | cons e es ih =>
    intro x hx
    unfold upsert at hx
    by_cases h1 : e.day < d
    · rw [if_pos h1] at hx
      rcases List.mem_cons.mp hx with rfl | hx
      · right; exact List.mem_cons_self _ _
      · rcases ih x hx with h | h
        · left; exact h
        · right; exact List.mem_cons_of_mem _ h
    · by_cases h2 : d < e.day
      · rw [if_neg h1, if_pos h2] at hx
        rcases List.mem_cons.mp hx with rfl | hx
        · left; rfl
        · right; exact hx
      · rw [if_neg h1, if_neg h2] at hx
        rcases List.mem_cons.mp hx with rfl | hx
        · left; rw [add_day]; omega
        · right; exact List.mem_cons_of_mem _ hx

theorem wf_upsert (stats : StatSet) (d : Int) (v : ℚ) (h : StatSet.WF stats) :
    StatSet.WF (upsert stats d v) := by
  induction stats with
  | nil => simp [upsert, StatSet.WF]
  | cons e es ih =>
    have hw := List.pairwise_cons.mp h
    unfold upsert
    by_cases h1 : e.day < d
    · rw [if_pos h1]
      refine List.pairwise_cons.mpr ⟨?_, ih hw.2⟩
      intro x hx
      rcases mem_upsert es d v x hx with hd | hm
      · rw [hd]; exact h1
      · exact hw.1 x hm
    · by_cases h2 : d < e.day
      · rw [if_neg h1, if_pos h2]
        refine List.pairwise_cons.mpr ⟨?_, h⟩
        intro x hx
        rcases List.mem_cons.mp hx with rfl | hx
        · exact h2
        · exact lt_trans h2 (hw.1 x hx)
      · rw [if_neg h1, if_neg h2]
        exact List.pairwise_cons.mpr ⟨fun x hx => by rw [add_day]; exact hw.1 x hx, hw.2⟩

theorem days_upsert (stats : StatSet) (d : Int) (v : ℚ) (d' : Int) :
    d' ∈ (upsert stats d v).map DayStats.day ↔ d' = d ∨ d' ∈ stats.map DayStats.day := by
  induction stats with
  | nil => simp [upsert, ctor]
  | cons e es ih =>
    unfold upsert
    by_cases h1 : e.day < d
    · rw [if_pos h1]
      simp only [List.map_cons, List.mem_cons, ih]
      tauto
    · by_cases h2 : d < e.day
      · rw [if_neg h1, if_pos h2]
        simp [ctor]
      · rw [if_neg h1, if_neg h2]
        have hd : e.day = d := by omega
        simp only [List.map_cons, List.mem_cons, add_day, hd]
        tauto

theorem length_upsert (stats : StatSet) (d : Int) (v : ℚ) (h : StatSet.WF stats) :
    (upsert stats d v).length
      = if d ∈ stats.map DayStats.day then stats.length else stats.length + 1 := by
  induction stats with
  | nil => simp [upsert]
  | cons e es ih =>
    have hw := List.pairwise_cons.mp h
    unfold upsert
    by_cases h1 : e.day < d
    · rw [if_pos h1]
      have hne : ¬ d = e.day := by omega
      simp only [List.length_cons, ih hw.2, List.map_cons, List.mem_cons, hne, false_or]
      split_ifs <;> rfl
    · by_cases h2 : d < e.day
      · rw [if_neg h1, if_pos h2]
        have hnot : d ∉ (e :: es).map DayStats.day := by
          intro hm
          obtain ⟨x, hx, hxd⟩ := List.mem_map.mp hm
          rcases List.mem_cons.mp hx with rfl | hx
          · omega
          · have := hw.1 x hx; omega
        rw [if_neg hnot]; simp
      · rw [if_neg h1, if_neg h2]
        have hd : d = e.day := by omega
        simp [hd]

theorem wf_aggregate (stats : StatSet) (line : String) (column : Int) (day0 : Int)
    (value0 : ℚ) (h : StatSet.WF stats) :
    StatSet.WF (aggregate stats line column day0 value0) := by
  unfold aggregate
  simp only
  rw [aggregateEntry_eq_upsert _ _ _ h]
  exact wf_upsert _ _ _ h

theorem wf_aggregateAll (calls : List Call) :
    ∀ stats : StatSet, StatSet.WF stats → StatSet.WF (aggregateAll stats calls) := by
  induction calls with
  | nil => intro stats h; exact h
  | cons c cs ih =>
    intro stats h
    exact ih _ (wf_aggregate stats c.line c.column c.day0 c.value0 h)

theorem wf_nil : StatSet.WF [] := List.Pairwise.nil

theorem days_aggregateAll (calls : List Call) :
    ∀ (stats : StatSet), StatSet.WF stats → ∀ d : Int,
      (d ∈ (aggregateAll stats calls).map DayStats.day ↔
        d ∈ stats.map DayStats.day
          ∨ ∃ c ∈ calls, (parseLine c.line c.column c.day0 c.value0).1 = d) := by
  induction calls with
  | nil => intro stats _ d; simp [aggregateAll]
  | cons c cs ih =>
    intro stats h d
    have hstep : aggregateAll stats (c :: cs)
        = aggregateAll (aggregate stats c.line c.column c.day0 c.value0) cs := rfl
    rw [hstep, ih _ (wf_aggregate stats c.line c.column c.day0 c.value0 h) d]
    unfold aggregate
    simp only
    rw [aggregateEntry_eq_upsert _ _ _ h, days_upsert]
    simp only [List.mem_cons, exists_eq_or_imp]
    constructor
    · rintro ((h1 | h1) | h1)
      · right; left; exact h1.symm
      · left; exact h1
      · right; right; exact h1
    · rintro (h1 | h1 | h1)
      · left; right; exact h1
      · left; left; exact h1.symm
      · right; exact h1

theorem printedEntries_eq_filter (stats : StatSet) (k : Int) :
    printedEntries stats k = stats.filter (fun e => decide (k ≤ e.day)) := by
  induction stats with
  | nil => rfl
  | cons e es ih =>
    unfold printedEntries
    by_cases h : k ≤ e.day
    · rw [if_pos (ge_iff_le.mpr h), ih, List.filter_cons_of_pos (by simpa using h)]
    · rw [if_neg (by simpa using h), ih, List.filter_cons_of_neg (by simpa using h)]

theorem insert_perm (stats : StatSet) (x : DayStats)
    (h : ∀ e ∈ stats, e.day ≠ x.day) : (StatSet.insert stats x).Perm (x :: stats) := by
  induction stats with
  | nil => exact List.Perm.refl _
  | cons e es ih =>
    have he : e.day ≠ x.day := h e (List.mem_cons_self _ _)
    have hes := ih (fun y hy => h y (List.mem_cons_of_mem _ hy))
    unfold StatSet.insert
    by_cases h1 : x.day < e.day
    · simp [lt, h1]
    · have h2 : e.day < x.day := by omega
      simp only [lt, h1, h2, decide_False, decide_True, Bool.false_eq_true, if_false, if_true]
      exact (List.Perm.cons e hes).trans (List.Perm.swap x e es)

theorem days_printedEntries (stats : StatSet) (k d : Int) :
    d ∈ (printedEntries stats k).map DayStats.day ↔ d ∈ stats.map DayStats.day ∧ k ≤ d := by
  rw [printedEntries_eq_filter]
  simp only [List.mem_map, List.mem_filter, decide_eq_true_eq]
  constructor
  · rintro ⟨e, ⟨he, hk⟩, rfl⟩
    exact ⟨⟨e, he, rfl⟩, hk⟩
  · rintro ⟨⟨e, he, rfl⟩, hk⟩
    exact ⟨e, ⟨he, hk⟩, rfl⟩

theorem days_printedEntries_sorted (stats : StatSet) (k : Int) (h : StatSet.WF stats) :
    ((printedEntries stats k).map DayStats.day).Pairwise (fun a b => a < b) := by
  rw [printedEntries_eq_filter, List.pairwise_map]
  exact List.Pairwise.sublist (List.filter_sublist _) h

theorem ascending_ext (l₁ l₂ : List Int) (h₁ : l₁.Pairwise (fun a b => a < b))
    (h₂ : l₂.Pairwise (fun a b => a < b)) (h : ∀ d, d ∈ l₁ ↔ d ∈ l₂) : l₁ = l₂ := by
  have n₁ : l₁.Nodup := h₁.imp (fun hab => ne_of_lt hab)
  have n₂ : l₂.Nodup := h₂.imp (fun hab => ne_of_lt hab)
  have hp : l₁.Perm l₂ := (List.perm_ext_iff_of_nodup n₁ n₂).mpr h
  exact List.eq_of_perm_of_sorted hp h₁ h₂

/-! ## The set and the report: claims C7 to C10 -/

/-- C7: when `stats` has no entry for day `d`, aggregating a line that parses
to day `d` and value `v` adds one record `r` with `day = d`, `count = 1`,
`mean = sum = min = max = v` and `var = 0`: the new set is the old one plus
`r`, and `r` is its only entry for `d`; the variance `var / count` of `r` is
0, and so are `sd()` and `ci()` for a square root with `sqrt 0 = 0`. -/
theorem C7_first_observation (sqrt : ℚ → ℚ) (hsqrt : sqrt 0 = 0) (stats : StatSet)
    (line : String) (column day0 : Int) (value0 : ℚ) (d : Int) (v : ℚ)
    (hline : parseLine line column day0 value0 = (d, v))
    (hnew : ∀ e ∈ stats, e.day ≠ d) :
    ∃ r : DayStats,
      (aggregate stats line column day0 value0).Perm (r :: stats)
      ∧ (∀ e ∈ aggregate stats line column day0 value0, e.day = d → e = r)
      ∧ r.day = d ∧ r.count = 1 ∧ r.mean = v ∧ r.sum = v ∧ r.min = v ∧ r.max = v
      ∧ r.var = 0 ∧ r.var / (r.count : ℚ) = 0 ∧ r.sd sqrt = 0 ∧ r.ci sqrt = 0 := by
  have hfind : StatSet.find stats (ctor d 0) = none :=
    find_none_of_absent stats (ctor d 0) hnew
  have hagg : aggregate stats line column day0 value0 = StatSet.insert stats (ctor d v) := by
    unfold aggregate aggregateEntry
    simp only [hline, hfind]
  have hperm : (aggregate stats line column day0 value0).Perm (ctor d v :: stats) := by
    rw [hagg]
    exact insert_perm stats (ctor d v) hnew
  refine ⟨ctor d v, hperm, ?_, rfl, rfl, rfl, rfl, rfl, rfl, rfl, ?_, ?_, ?_⟩
  · intro e he hd
    rcases List.mem_cons.mp (hperm.subset he) with h | h
    · exact h
    · exact absurd hd (hnew e h)
  · simp [ctor]
  · simp [sd, ctor, hsqrt]
  · simp [ci, sd, ctor, hsqrt]

/-- Witness for C7: the line `5 0.017 0.014 0.274` with column 1, aggregated
into a set that holds day 0 only. -/
theorem C7_first_observation_witness :
    parseLine "5\t0.017\t0.014\t0.274" 1 0 0 = (5, 17 / 1000)
    ∧ ∃ r : DayStats,
      (aggregate [ctor 0 10000] "5\t0.017\t0.014\t0.274" 1 0 0).Perm (r :: [ctor 0 10000])
      ∧ (∀ e ∈ aggregate [ctor 0 10000] "5\t0.017\t0.014\t0.274" 1 0 0, e.day = 5 → e = r)
      ∧ r.day = 5 ∧ r.count = 1 ∧ r.mean = 17 / 1000 ∧ r.sum = 17 / 1000
      ∧ r.min = 17 / 1000 ∧ r.max = 17 / 1000
      ∧ r.var = 0 ∧ r.var / (r.count : ℚ) = 0
      ∧ r.sd (fun x : ℚ => if x = 0 then (0 : ℚ) else 1) = 0
      ∧ r.ci (fun x : ℚ => if x = 0 then (0 : ℚ) else 1) = 0 :=
  ⟨by decide!,
    C7_first_observation (fun x : ℚ => if x = 0 then (0 : ℚ) else 1) (by simp) [ctor 0 10000]
      "5\t0.017\t0.014\t0.274" 1 0 0 5 (17 / 1000) (by decide!) (by simp [ctor])⟩

/-- C8: for every set built from the empty set by a finite sequence of
`aggregate` calls and every `startDay`, the days of the entries that `print`
emits are strictly ascending (each earlier day is less than each later one),
and the emitted days are the same list for every reordering of the calls. -/
theorem C8_print_strictly_ascending (calls : List Call) (startDay : Int) :
    ((printedEntries (aggregateAll [] calls) startDay).map DayStats.day).Pairwise
        (fun a b => a < b)
    ∧ ∀ calls' : List Call, calls'.Perm calls →
        (printedEntries (aggregateAll [] calls') startDay).map DayStats.day
          = (printedEntries (aggregateAll [] calls) startDay).map DayStats.day := by
  have hs := fun cs : List Call =>
    days_printedEntries_sorted (aggregateAll [] cs) startDay (wf_aggregateAll cs [] wf_nil)
  refine ⟨hs calls, fun calls' hp => ascending_ext _ _ (hs calls') (hs calls) ?_⟩
  intro d
  rw [days_printedEntries, days_printedEntries, days_aggregateAll calls' [] wf_nil,
    days_aggregateAll calls [] wf_nil]
  simp only [List.map_nil, List.not_mem_nil, false_or]
  constructor
  · rintro ⟨⟨c, hc, hd⟩, hk⟩
    exact ⟨⟨c, hp.subset hc, hd⟩, hk⟩
  · rintro ⟨⟨c, hc, hd⟩, hk⟩
    exact ⟨⟨c, hp.symm.subset hc, hd⟩, hk⟩

/-- C9 as stated fails: after aggregating the line `-5 1.0 2.0 3.0`, `print`
with `startDay = -10` emits the record of day -5, while `print` with
`startDay = 0` emits nothing, so no removal from the latter yields the
former. -/
theorem C9_counterexample :
    printedEntries (aggregate [] "-5\t1.0\t2.0\t3.0" 1 0 0) (-10)
        = [{ day := -5, sum := 1, mean := 1, var := 0, count := 1, min := 1, max := 1 }]
    ∧ printedEntries (aggregate [] "-5\t1.0\t2.0\t3.0" 1 0 0) 0 = []
    ∧ printedEntries (aggregate [] "-5\t1.0\t2.0\t3.0" 1 0 0) (-10)
        ≠ (printedEntries (aggregate [] "-5\t1.0\t2.0\t3.0" 1 0 0) 0).filter
            (fun e => decide (-10 ≤ e.day)) := by
  decide!

/-- C9, amended: for every set and every `startDay`, negative ones included,
the entries `print` emits are exactly the entries of the set with
`day ≥ startDay`, unchanged and in the order of the set, and none has
`day < startDay`; when `startDay ≥ 0`, or when no entry has a negative day,
they are the entries `print` emits for `startDay = 0` with those of
`day < startDay` removed. -/
theorem C9_print_filters (stats : StatSet) (startDay : Int) :
    printedEntries stats startDay = stats.filter (fun e => decide (startDay ≤ e.day))
    ∧ (∀ e, e ∈ printedEntries stats startDay ↔ e ∈ stats ∧ startDay ≤ e.day)
    ∧ (∀ e ∈ printedEntries stats startDay, ¬ e.day < startDay)
    ∧ ((0 ≤ startDay ∨ ∀ e ∈ stats, 0 ≤ e.day) →
        printedEntries stats startDay
          = (printedEntries stats 0).filter (fun e => decide (startDay ≤ e.day))) := by
  refine ⟨printedEntries_eq_filter stats startDay, ?_, ?_, ?_⟩
  · intro e
    rw [printedEntries_eq_filter]
    simp [List.mem_filter]
  · intro e he
    rw [printedEntries_eq_filter] at he
    have := (List.mem_filter.mp he).2
    simp only [decide_eq_true_eq] at this
    omega
  · intro h
    rw [printedEntries_eq_filter, printedEntries_eq_filter, List.filter_filter]
    apply List.filter_congr
    intro e he
    rcases h with h | h
    · by_cases hk : startDay ≤ e.day
      · have : (0 : Int) ≤ e.day := le_trans h hk
        simp [hk, this]
      · simp [hk]
    · have := h e he
      simp [this]

/-- Witness for C9: days 0, 5 and 10 with `startDay = 5`; and days -5 and 3
with `startDay = -10`, where both entries are emitted. -/
theorem C9_print_filters_witness :
    printedEntries [ctor 0 1, ctor 5 2, ctor 10 3] 5
        = [ctor 0 1, ctor 5 2, ctor 10 3].filter (fun e => decide ((5 : Int) ≤ e.day))
    ∧ (∀ e, e ∈ printedEntries [ctor 0 1, ctor 5 2, ctor 10 3] 5
        ↔ e ∈ [ctor 0 1, ctor 5 2, ctor 10 3] ∧ 5 ≤ e.day)
    ∧ (∀ e ∈ printedEntries [ctor 0 1, ctor 5 2, ctor 10 3] 5, ¬ e.day < 5)
    ∧ printedEntries [ctor 0 1, ctor 5 2, ctor 10 3] 5
        = (printedEntries [ctor 0 1, ctor 5 2, ctor 10 3] 0).filter
            (fun e => decide ((5 : Int) ≤ e.day))
    ∧ printedEntries [ctor (-5) 1, ctor 3 2] (-10)
        = [ctor (-5) 1, ctor 3 2].filter (fun e => decide ((-10 : Int) ≤ e.day))
    ∧ [ctor (-5) 1, ctor 3 2].filter (fun e => decide ((-10 : Int) ≤ e.day))
        = [ctor (-5) 1, ctor 3 2] :=
  ⟨(C9_print_filters [ctor 0 1, ctor 5 2, ctor 10 3] 5).1,
   (C9_print_filters [ctor 0 1, ctor 5 2, ctor 10 3] 5).2.1,
   (C9_print_filters [ctor 0 1, ctor 5 2, ctor 10 3] 5).2.2.1,
   (C9_print_filters [ctor 0 1, ctor 5 2, ctor 10 3] 5).2.2.2 (Or.inl (by decide)),
   (C9_print_filters [ctor (-5) 1, ctor 3 2] (-10)).1,
   by decide!⟩

/-- C10: after any finite sequence of `aggregate` calls on the empty set, the
days of the set are exactly the days parsed from the lines, each occurring
once; a further call leaves the number of entries unchanged when the day of
its line is present and raises it by one when the day is new. -/
theorem C10_one_record_per_day (calls : List Call) (line : String) (column day0 : Int)
    (value0 : ℚ) :
    (∀ d : Int, d ∈ (aggregateAll [] calls).map DayStats.day ↔
        ∃ c ∈ calls, (parseLine c.line c.column c.day0 c.value0).1 = d)
    ∧ ((aggregateAll [] calls).map DayStats.day).Nodup
    ∧ (∀ d : Int, ((aggregateAll [] calls).map DayStats.day).count d
        = if ∃ c ∈ calls, (parseLine c.line c.column c.day0 c.value0).1 = d then 1 else 0)
    ∧ (aggregate (aggregateAll [] calls) line column day0 value0).length
        = if (parseLine line column day0 value0).1 ∈ (aggregateAll [] calls).map DayStats.day
          then (aggregateAll [] calls).length
          else (aggregateAll [] calls).length + 1 := by
  have hw : StatSet.WF (aggregateAll [] calls) := wf_aggregateAll calls [] wf_nil
  have hmem : ∀ d : Int, d ∈ (aggregateAll [] calls).map DayStats.day ↔
      ∃ c ∈ calls, (parseLine c.line c.column c.day0 c.value0).1 = d := by
    intro d
    rw [days_aggregateAll calls [] wf_nil]
    simp
  have hnd : ((aggregateAll [] calls).map DayStats.day).Nodup := by
    have hp : ((aggregateAll [] calls).map DayStats.day).Pairwise (fun a b => a < b) :=
      List.pairwise_map.mpr hw
    exact hp.imp (fun hab => ne_of_lt hab)
  refine ⟨hmem, hnd, ?_, ?_⟩
  · intro d
    by_cases hd : ∃ c ∈ calls, (parseLine c.line c.column c.day0 c.value0).1 = d
    · rw [if_pos hd]
      exact List.count_eq_one_of_mem hnd ((hmem d).mpr hd)
    · rw [if_neg hd]
      exact List.count_eq_zero_of_not_mem (fun hm => hd ((hmem d).mp hm))
  · unfold aggregate
    simp only
    rw [aggregateEntry_eq_upsert _ _ _ hw, length_upsert _ _ _ hw]

/-! ## Lemmas on the read loop and on `print` -/

theorem upsert_ne (stats : StatSet) (d : Int) (v : ℚ) : upsert stats d v ≠ stats := by
  induction stats with
  | nil => simp [upsert]
  | cons e es ih =>
    unfold upsert
    by_cases h1 : e.day < d
    · rw [if_pos h1]
      intro h
      exact ih (List.cons_injective h)
    · by_cases h2 : d < e.day
      · rw [if_neg h1, if_pos h2]
        intro h
        have := congrArg List.length h
        simp at this
      · rw [if_neg h1, if_neg h2]
        intro h
        have hc : (e.add v).count = e.count := by rw [(List.cons.inj h).1]
        rw [add_count] at hc
        omega

theorem aggregate_ne (stats : StatSet) (line : String) (column day0 : Int) (value0 : ℚ)
    (h : StatSet.WF stats) : aggregate stats line column day0 value0 ≠ stats := by
  unfold aggregate
  simp only
  rw [aggregateEntry_eq_upsert _ _ _ h]
  exact upsert_ne _ _ _

theorem readLoop_append (lines : List String) (line : String) (column day0 : Int)
    (value0 : ℚ) :
    readLoop (lines ++ [line]) column day0 value0
      = if line.utf8ByteSize > 10
        then aggregate (readLoop lines column day0 value0) line column day0 value0
        else readLoop lines column day0 value0 := by
  simp [readLoop, List.foldl_append]

theorem wf_readLoop (lines : List String) (column day0 : Int) (value0 : ℚ) :
    StatSet.WF (readLoop lines column day0 value0) := by
  induction lines using List.reverseRecOn with
  | nil => exact wf_nil
  | append_singleton ls l ih =>
    rw [readLoop_append]
    split_ifs
    · exact wf_aggregate _ _ _ _ _ ih
    · exact ih

theorem print_eq (sqrt : ℚ → ℚ) (stats : StatSet) (startDay : Int) :
    print sqrt stats startDay
      = Item.text "#day, count, mean, SD, main, max, sum, 95%ci\n" ::
        ((printedEntries stats startDay).map
          (fun e => operatorOut sqrt e ++ [Item.endl])).flatten := by
  unfold print
  congr 1
  induction printedEntries stats startDay with
  | nil => rfl
  | cons e es ih => simp [ih]

/-! ## Lemmas on formatted extraction -/

theorem isSpace_cases (w : Char) (h : isSpace w = true) :
    w = Char.ofNat 32 ∨ w = Char.ofNat 9 ∨ w = Char.ofNat 10 ∨ w = Char.ofNat 11
      ∨ w = Char.ofNat 12 ∨ w = Char.ofNat 13 := by
  have hw : Char.ofNat w.toNat = w := Char.ofNat_toNat w
  unfold isSpace at h
  simp only [Bool.or_eq_true, beq_iff_eq, Bool.and_eq_true, decide_eq_true_eq] at h
  rcases h with h | ⟨h1, h2⟩
  · left; rw [← hw, h]
  · right
    have : w.toNat = 9 ∨ w.toNat = 10 ∨ w.toNat = 11 ∨ w.toNat = 12 ∨ w.toNat = 13 := by omega
    rcases this with h | h | h | h | h <;> rw [← hw, h] <;> simp

theorem isSpace_not_digit (w : Char) (h : isSpace w = true) : Char.isDigit w = false := by
  rcases isSpace_cases w h with h | h | h | h | h | h <;> rw [h] <;> decide

theorem isSpace_not_mark (w : Char) (h : isSpace w = true) :
    w ≠ '.' ∧ w ≠ 'e' ∧ w ≠ 'E' ∧ w ≠ '+' ∧ w ≠ '-' := by
  rcases isSpace_cases w h with h | h | h | h | h | h <;> rw [h] <;> decide

theorem takeWhile_digit_frame (l tail : List Char) (h : tailOk tail = true) :
    (l ++ tail).takeWhile Char.isDigit = l.takeWhile Char.isDigit := by
  induction l with
  | nil =>
    cases tail with
    | nil => rfl
    | cons w r => simp [List.takeWhile, isSpace_not_digit w h]
  | cons c t ih =>
    simp only [List.cons_append, List.takeWhile_cons, ih]

theorem dropWhile_digit_frame (l tail : List Char) (h : tailOk tail = true) :
    (l ++ tail).dropWhile Char.isDigit = l.dropWhile Char.isDigit ++ tail := by
  induction l with
  | nil =>
    cases tail with
    | nil => rfl
    | cons w r => simp [List.dropWhile, isSpace_not_digit w h]
  | cons c t ih =>
    simp only [List.cons_append, List.dropWhile_cons, ih]
    split <;> rfl

theorem dropWhile_space_frame (l tail : List Char) (h : l.dropWhile isSpace ≠ []) :
    (l ++ tail).dropWhile isSpace = l.dropWhile isSpace ++ tail := by
  induction l with
  | nil => simp at h
  | cons c t ih =>
    simp only [List.cons_append, List.dropWhile_cons] at h ⊢
    split
    · rename_i hc
      rw [hc] at h
      exact ih h
    · rfl

theorem readSign_cons_other (c : Char) (u : List Char) (h1 : c ≠ '-') (h2 : c ≠ '+') :
    readSign (c :: u) = (false, c :: u) := by
  unfold readSign
  split
  · rename_i heq; exact absurd (List.cons.inj heq).1 h1
  · rename_i heq; exact absurd (List.cons.inj heq).1 h2
  · rfl

theorem readSign_frame (l tail : List Char) (h : tailOk tail = true) :
    readSign (l ++ tail) = ((readSign l).1, (readSign l).2 ++ tail) := by
  cases l with
  | nil =>
    cases tail with
    | nil => rfl
    | cons w r =>
      have hm := isSpace_not_mark w h
      rw [List.nil_append, readSign_cons_other w r hm.2.2.2.2 hm.2.2.2.1]
      rfl
  | cons c t =>
    by_cases h1 : c = '-'
    · subst h1; rfl
    · by_cases h2 : c = '+'
      · subst h2; rfl
      · rw [List.cons_append, readSign_cons_other c _ h1 h2, readSign_cons_other c _ h1 h2]
        rfl

theorem readExponent_frame (l tail : List Char) (h : tailOk tail = true) :
    readExponent (l ++ tail) = ((readExponent l).1, (readExponent l).2 ++ tail) := by
  cases l with
  | nil =>
    cases tail with
    | nil => rfl
    | cons w r =>
      have hm := isSpace_not_mark w h
      simp [readExponent, hm.2.1, hm.2.2.1]
  | cons c t =>
    simp only [List.cons_append, readExponent, readSign_frame t tail h,
      takeWhile_digit_frame _ tail h, dropWhile_digit_frame _ tail h]
    split_ifs <;> rfl

theorem extractInt_frame (b tail : List Char) (x : Int) (h : tailOk tail = true)
    (hb : b.dropWhile isSpace ≠ []) :
    extractInt { buf := b ++ tail, fail := false } x
      = ({ buf := (extractInt { buf := b, fail := false } x).1.buf ++ tail,
           fail := (extractInt { buf := b, fail := false } x).1.fail },
         (extractInt { buf := b, fail := false } x).2) := by
  have hne : (b.dropWhile isSpace ++ tail).isEmpty = false := by
    cases hd : b.dropWhile isSpace with
    | nil => exact absurd hd hb
    | cons c t => rfl
  have hne2 : (b.dropWhile isSpace).isEmpty = false := by
    cases hd : b.dropWhile isSpace with
    | nil => exact absurd hd hb
    | cons c t => rfl
  unfold extractInt
  simp only [Bool.false_eq_true, if_false, dropWhile_space_frame b tail hb, hne, hne2,
    readSign_frame _ tail h, takeWhile_digit_frame _ tail h, dropWhile_digit_frame _ tail h]
  split_ifs <;> rfl

theorem extractDouble_frame (b tail : List Char) (x : ℚ) (h : tailOk tail = true)
    (hb : b.dropWhile isSpace ≠ []) :
    extractDouble { buf := b ++ tail, fail := false } x
      = ({ buf := (extractDouble { buf := b, fail := false } x).1.buf ++ tail,
           fail := (extractDouble { buf := b, fail := false } x).1.fail },
         (extractDouble { buf := b, fail := false } x).2) := by
  have hne : (b.dropWhile isSpace ++ tail).isEmpty = false := by
    cases hd : b.dropWhile isSpace with
    | nil => exact absurd hd hb
    | cons c t => rfl
  have hne2 : (b.dropWhile isSpace).isEmpty = false := by
    cases hd : b.dropWhile isSpace with
    | nil => exact absurd hd hb
    | cons c t => rfl
  unfold extractDouble
  simp only [Bool.false_eq_true, if_false, dropWhile_space_frame b tail hb, hne, hne2,
    readSign_frame _ tail h, takeWhile_digit_frame _ tail h, dropWhile_digit_frame _ tail h]
  generalize (readSign (b.dropWhile isSpace)).1 = sg
  generalize List.takeWhile Char.isDigit (readSign (b.dropWhile isSpace)).2 = ip
  generalize List.dropWhile Char.isDigit (readSign (b.dropWhile isSpace)).2 = b2
  cases b2 with
  | nil =>
    cases tail with
    | nil => simp
    | cons w r =>
      have hm := isSpace_not_mark w h
      have hre : readExponent (w :: r) = (some 0, w :: r) := by
        simp [readExponent, hm.2.1, hm.2.2.1]
      have hre0 : readExponent [] = (some 0, []) := rfl
      simp only [List.nil_append]
      simp [hm.1, hre, hre0]
      split_ifs <;> simp
  | cons c t =>
    by_cases hc : c = '.'
    · subst hc
      simp only [List.cons_append, takeWhile_digit_frame _ tail h,
        dropWhile_digit_frame _ tail h, readExponent_frame _ tail h]
      rcases readExponent (List.dropWhile Char.isDigit t) with ⟨_ | e, rest⟩ <;>
        dsimp only <;> split_ifs <;> rfl
    · have hre := readExponent_frame (c :: t) tail h
      rw [List.cons_append] at hre
      simp only [List.cons_append]
      simp [hc, hre]
      rcases readExponent (c :: t) with ⟨_ | e, rest⟩ <;>
        dsimp only <;> split_ifs <;> simp

theorem extractDouble_nonblank (b : List Char) (x y : ℚ) (hb : b.dropWhile isSpace ≠ []) :
    extractDouble { buf := b, fail := false } x = extractDouble { buf := b, fail := false } y := by
  have hne : (b.dropWhile isSpace).isEmpty = false := by
    cases hd : b.dropWhile isSpace with
    | nil => exact absurd hd hb
    | cons c t => rfl
  unfold extractDouble
  simp only [Bool.false_eq_true, if_false, hne]

theorem extractInt_nonblank (b : List Char) (x y : Int) (hb : b.dropWhile isSpace ≠ []) :
    extractInt { buf := b, fail := false } x = extractInt { buf := b, fail := false } y := by
  have hne : (b.dropWhile isSpace).isEmpty = false := by
    cases hd : b.dropWhile isSpace with
    | nil => exact absurd hd hb
    | cons c t => rfl
  unfold extractInt
  simp only [Bool.false_eq_true, if_false, hne]

theorem extractDouble_blank (b : List Char) (x : ℚ) (hb : b.dropWhile isSpace = []) :
    extractDouble { buf := b, fail := false } x = ({ buf := [], fail := true }, x) := by
  unfold extractDouble
  simp [hb]

theorem extractInt_blank (b : List Char) (x : Int) (hb : b.dropWhile isSpace = []) :
    extractInt { buf := b, fail := false } x = ({ buf := [], fail := true }, x) := by
  unfold extractInt
  simp [hb]

theorem extractDouble_failed (b : List Char) (x : ℚ) :
    extractDouble { buf := b, fail := true } x = ({ buf := b, fail := true }, x) := by
  unfold extractDouble
  simp

theorem extractDouble_sep (w : Char) (b : List Char) (x : ℚ) (hw : isSpace w = true) :
    extractDouble { buf := w :: b, fail := false } x
      = extractDouble { buf := b, fail := false } x := by
  unfold extractDouble
  simp only [Bool.false_eq_true, if_false, List.dropWhile_cons, hw, if_true]

theorem extractDouble_fail_value (b : List Char) (x : ℚ) (hb : b.dropWhile isSpace ≠ [])
    (hf : (extractDouble { buf := b, fail := false } x).1.fail = true) :
    (extractDouble { buf := b, fail := false } x).2 = 0
      ∨ (extractDouble { buf := b, fail := false } x).2 = dblMax
      ∨ (extractDouble { buf := b, fail := false } x).2 = -dblMax := by
  have hne : (b.dropWhile isSpace).isEmpty = false := by
    cases hd : b.dropWhile isSpace with
    | nil => exact absurd hd hb
    | cons c t => rfl
  unfold extractDouble at hf ⊢
  simp only [Bool.false_eq_true, if_false, hne] at hf ⊢
  generalize readExponent _ = ex at hf ⊢
  rcases ex with ⟨_ | e, rest⟩
  · dsimp only
    split_ifs <;> exact Or.inl rfl
  · dsimp only at hf ⊢
    split_ifs at hf ⊢
    · exact Or.inl rfl
    · exact Or.inr (Or.inr rfl)
    · exact Or.inr (Or.inl rfl)

theorem field_nonblank (f : Field) (h : f.ok) : f.text.dropWhile isSpace ≠ [] := by
  intro hb
  have := h.2
  rw [extractDouble_blank _ _ hb] at this
  cases this

theorem dayToken_nonblank (tok : List Char) (d : Int) (h : dayToken tok d) :
    tok.dropWhile isSpace ≠ [] := by
  intro hb
  unfold dayToken at h
  rw [extractInt_blank _ _ hb] at h
  cases h

theorem extractDouble_field (f : Field) (acc : List Char) (x : ℚ) (h : f.ok)
    (hacc : tailOk acc = true) :
    extractDouble { buf := f.sep :: (f.text ++ acc), fail := false } x
      = ({ buf := acc, fail := false }, f.value) := by
  have hb := field_nonblank f h
  rw [extractDouble_sep _ _ _ h.1, extractDouble_frame _ _ _ hacc hb,
    extractDouble_nonblank _ x 0 hb, h.2]
  rfl

theorem extractDouble_fails (f : Field) (acc : List Char) (x : ℚ) (h : f.fails)
    (hacc : tailOk acc = true) :
    (extractDouble { buf := f.sep :: (f.text ++ acc), fail := false } x).1.fail = true
    ∧ (extractDouble { buf := f.sep :: (f.text ++ acc), fail := false } x).2 = f.value := by
  rw [extractDouble_sep _ _ _ h.1, extractDouble_frame _ _ _ hacc h.2.1,
    extractDouble_nonblank _ x 0 h.2.1]
  exact ⟨h.2.2.1, h.2.2.2⟩

theorem fails_value (f : Field) (h : f.fails) :
    f.value = 0 ∨ f.value = dblMax ∨ f.value = -dblMax := by
  have := extractDouble_fail_value f.text 0 h.2.1 h.2.2.1
  rw [h.2.2.2] at this
  exact this

theorem extractDouble_notNumeric (b : List Char) (x : ℚ) (hb : b.dropWhile isSpace ≠ [])
    (hn : notNumeric b = true) :
    (extractDouble { buf := b, fail := false } x).1.fail = true
    ∧ (extractDouble { buf := b, fail := false } x).2 = 0 := by
  have hne : (b.dropWhile isSpace).isEmpty = false := by
    cases hd : b.dropWhile isSpace with
    | nil => exact absurd hd hb
    | cons c t => rfl
  unfold notNumeric at hn
  unfold extractDouble
  simp only [Bool.false_eq_true, if_false, hne]
  generalize (readSign (b.dropWhile isSpace)).2 = s2 at hn ⊢
  cases s2 with
  | nil => simp
  | cons c t =>
    simp only [Bool.not_eq_true', Bool.or_eq_false_iff, beq_eq_false_iff_ne, ne_eq] at hn
    simp [List.takeWhile_cons, List.dropWhile_cons, hn.1, hn.2]

theorem bad_fails (f : Field) (h : f.bad) : f.fails := by
  have := extractDouble_notNumeric f.text 0 h.2.1 h.2.2.1
  exact ⟨h.1, h.2.1, this.1, by rw [this.2, h.2.2.2]⟩

theorem tailOk_fieldsText (fields : List Field) (tail : List Char)
    (h : ∀ g ∈ fields, isSpace g.sep = true) (ht : tailOk tail = true) :
    tailOk (fieldsText fields tail) = true := by
  cases fields with
  | nil => exact ht
  | cons g gs => exact h g (List.mem_cons_self _ _)

theorem tailOk_of_blank (tail : List Char) (h : tail.dropWhile isSpace = []) :
    tailOk tail = true := by
  cases tail with
  | nil => rfl
  | cons w r =>
    simp only [List.dropWhile_cons] at h
    split at h
    · assumption
    · cases h

theorem skipColumns_failed (n : Nat) (b : List Char) (x : ℚ) :
    skipColumns n { buf := b, fail := true } x = ({ buf := b, fail := true }, x) := by
  induction n with
  | zero => rfl
  | succ k ih => simp only [skipColumns, extractDouble_failed, ih]

theorem skipColumns_fields (fields : List Field) :
    ∀ (f : Field) (tail : List Char) (x : ℚ), (∀ g ∈ fields ++ [f], g.ok) →
      tailOk tail = true →
      skipColumns (fields.length + 1)
          { buf := fieldsText (fields ++ [f]) tail, fail := false } x
        = ({ buf := tail, fail := false }, f.value) := by
  induction fields with
  | nil =>
    intro f tail x h ht
    have hf : f.ok := h f (by simp)
    simp only [List.nil_append, fieldsText, List.foldr, List.length_nil, skipColumns,
      extractDouble_field f tail x hf ht]
  | cons g gs ih =>
    intro f tail x h ht
    have hg : g.ok := h g (by simp)
    have hrest : ∀ k ∈ gs ++ [f], k.ok := fun k hk => h k (by simp at hk ⊢; tauto)
    have hacc : tailOk (fieldsText (gs ++ [f]) tail) = true :=
      tailOk_fieldsText _ _ (fun k hk => (hrest k hk).1) ht
    have hstep := extractDouble_field g (fieldsText (gs ++ [f]) tail) x hg hacc
    have htext : fieldsText (g :: gs ++ [f]) tail
        = g.sep :: (g.text ++ fieldsText (gs ++ [f]) tail) := rfl
    rw [htext]
    simp only [List.length_cons, skipColumns, hstep]
    exact ih f tail g.value hrest ht

theorem skipColumns_add (m n : Nat) :
    ∀ (is : IStream) (x : ℚ),
      skipColumns (m + n) is x = skipColumns n (skipColumns m is x).1 (skipColumns m is x).2 := by
  induction m with
  | zero => intro is x; simp [skipColumns]
  | succ k ih =>
    intro is x
    rw [Nat.succ_add]
    simp only [skipColumns]
    exact ih _ _

theorem skipColumns_prefix (fields : List Field) :
    ∀ (acc : List Char) (x : ℚ), (∀ g ∈ fields, g.ok) → tailOk acc = true →
      (skipColumns fields.length { buf := fieldsText fields acc, fail := false } x).1
        = { buf := acc, fail := false } := by
  induction fields with
  | nil => intro acc x _ _; rfl
  | cons g gs ih =>
    intro acc x h hacc
    have hg : g.ok := h g (by simp)
    have hrest : ∀ k ∈ gs, k.ok := fun k hk => h k (List.mem_cons_of_mem _ hk)
    have hmid : tailOk (fieldsText gs acc) = true :=
      tailOk_fieldsText _ _ (fun k hk => (hrest k hk).1) hacc
    have htext : fieldsText (g :: gs) acc = g.sep :: (g.text ++ fieldsText gs acc) := rfl
    rw [htext]
    simp only [List.length_cons, skipColumns, extractDouble_field g _ x hg hmid]
    exact ih acc g.value hrest hacc

theorem extractInt_dayToken (dayTok : List Char) (d : Int) (rest : List Char) (x : Int)
    (hday : dayToken dayTok d) (hrest : tailOk rest = true) :
    extractInt { buf := dayTok ++ rest, fail := false } x
      = ({ buf := rest, fail := false }, d) := by
  have hb := dayToken_nonblank dayTok d hday
  unfold dayToken at hday
  rw [extractInt_frame _ _ _ hrest hb, extractInt_nonblank _ x 0 hb, hday]
  rfl

/-- A line made of an integer token and well-formed fields: with the column
argument equal to the number `fields.length + 1` of fields up to and including
`f`, the parse ends after `f` and yields the day and the value of `f`. -/
theorem parseState_tokens (line : String) (dayTok : List Char) (d : Int)
    (fields : List Field) (f : Field) (tail : List Char) (day0 : Int) (value0 : ℚ)
    (hline : line.toList = dayTok ++ fieldsText (fields ++ [f]) tail)
    (hday : dayToken dayTok d) (hok : ∀ g ∈ fields ++ [f], g.ok)
    (htail : tailOk tail = true) :
    parseState line ((fields.length + 1 : Nat) : Int) day0 value0
      = ({ buf := tail, fail := false }, d, f.value) := by
  have hacc : tailOk (fieldsText (fields ++ [f]) tail) = true :=
    tailOk_fieldsText _ _ (fun k hk => (hok k hk).1) htail
  unfold parseState
  simp only [hline, extractInt_dayToken dayTok d _ day0 hday hacc, Int.toNat_ofNat,
    skipColumns_fields fields f tail value0 hok htail]

theorem parseLine_tokens (line : String) (dayTok : List Char) (d : Int)
    (fields : List Field) (f : Field) (tail : List Char) (day0 : Int) (value0 : ℚ)
    (hline : line.toList = dayTok ++ fieldsText (fields ++ [f]) tail)
    (hday : dayToken dayTok d) (hok : ∀ g ∈ fields ++ [f], g.ok)
    (htail : tailOk tail = true) :
    parseLine line ((fields.length + 1 : Nat) : Int) day0 value0 = (d, f.value) := by
  unfold parseLine
  rw [parseState_tokens line dayTok d fields f tail day0 value0 hline hday hok htail]

/-- A line whose field `f`, after well-formed ones, makes the conversion fail,
with a column argument that reaches `f`: the value left in `value` is the one
the failed conversion stores. -/
theorem parseLine_failing_token (line : String) (dayTok : List Char) (d : Int)
    (fields : List Field) (f : Field) (tail : List Char) (column day0 : Int) (value0 : ℚ)
    (hline : line.toList = dayTok ++ fieldsText fields (f.sep :: (f.text ++ tail)))
    (hday : dayToken dayTok d) (hok : ∀ g ∈ fields, g.ok) (hbad : f.fails)
    (htail : tailOk tail = true) (hcol : (fields.length : Int) < column) :
    parseLine line column day0 value0 = (d, f.value) := by
  have hacc : tailOk (f.sep :: (f.text ++ tail)) = true := hbad.1
  have hall : tailOk (fieldsText fields (f.sep :: (f.text ++ tail))) = true :=
    tailOk_fieldsText _ _ (fun k hk => (hok k hk).1) hacc
  obtain ⟨k, hk⟩ : ∃ k : Nat, column.toNat = fields.length + (1 + k) :=
    ⟨column.toNat - fields.length - 1, by omega⟩
  unfold parseLine parseState
  simp only [hline, extractInt_dayToken dayTok d _ day0 hday hall, hk]
  rw [skipColumns_add]
  have hpre := skipColumns_prefix fields (f.sep :: (f.text ++ tail)) value0 hok hacc
  generalize skipColumns fields.length _ value0 = st at hpre
  rcases st with ⟨is, y⟩
  simp only at hpre
  subst hpre
  rw [skipColumns_add]
  simp only [skipColumns]
  have hb := extractDouble_fails f tail y hbad htail
  generalize extractDouble _ y = r at hb
  rcases r with ⟨⟨buf, fl⟩, val⟩
  simp only at hb
  obtain ⟨rfl, rfl⟩ := hb
  rw [skipColumns_failed]

/-- A line with well-formed fields up to `f` and nothing but blanks after it,
with a column argument beyond `f`: the value left in `value` is that of `f`. -/
theorem parseLine_short_line (line : String) (dayTok : List Char) (d : Int)
    (fields : List Field) (f : Field) (tail : List Char) (column day0 : Int) (value0 : ℚ)
    (hline : line.toList = dayTok ++ fieldsText (fields ++ [f]) tail)
    (hday : dayToken dayTok d) (hok : ∀ g ∈ fields ++ [f], g.ok)
    (htail : tail.dropWhile isSpace = []) (hcol : (fields.length : Int) + 1 < column) :
    parseLine line column day0 value0 = (d, f.value) := by
  have ht : tailOk tail = true := tailOk_of_blank tail htail
  have hall : tailOk (fieldsText (fields ++ [f]) tail) = true :=
    tailOk_fieldsText _ _ (fun k hk => (hok k hk).1) ht
  obtain ⟨k, hk⟩ : ∃ k : Nat, column.toNat = (fields.length + 1) + (1 + k) :=
    ⟨column.toNat - fields.length - 2, by omega⟩
  unfold parseLine parseState
  simp only [hline, extractInt_dayToken dayTok d _ day0 hday hall, hk]
  rw [skipColumns_add, skipColumns_fields fields f tail value0 hok ht, skipColumns_add]
  simp only [skipColumns, extractDouble_blank tail f.value htail, skipColumns_failed]

/-- With column 0 the loop reads nothing: `value` keeps its prior content. -/
theorem parseLine_column_zero (line : String) (day0 : Int) (value0 : ℚ) :
    (parseLine line 0 day0 value0).2 = value0 := rfl

/-! ## Lemmas on the records of a set -/

theorem count_pos_of_reachable (r : DayStats) (h : Reachable r) : 1 ≤ r.count := by
  obtain ⟨l, hl⟩ := summarises_of_reachable r h
  rw [hl.count_eq]
  have := hl.pos
  omega

theorem reachable_upsert (stats : StatSet) (d : Int) (v : ℚ)
    (h : ∀ e ∈ stats, Reachable e) : ∀ e ∈ upsert stats d v, Reachable e := by
  induction stats with
  | nil =>
    intro e he
    simp only [upsert, List.mem_singleton] at he
    rw [he]
    exact Reachable.ctor d v
  | cons x xs ih =>
    have hx : Reachable x := h x (List.mem_cons_self _ _)
    have hxs : ∀ e ∈ xs, Reachable e := fun e he => h e (List.mem_cons_of_mem _ he)
    intro e he
    unfold upsert at he
    split_ifs at he
    · rcases List.mem_cons.mp he with rfl | he
      · exact hx
      · exact ih hxs e he
    · rcases List.mem_cons.mp he with rfl | he
      · exact Reachable.ctor d v
      · exact h e he
    · rcases List.mem_cons.mp he with rfl | he
      · exact Reachable.add x v hx
      · exact hxs e he

theorem reachable_aggregateAll (calls : List Call) :
    ∀ stats : StatSet, StatSet.WF stats → (∀ e ∈ stats, Reachable e) →
      ∀ e ∈ aggregateAll stats calls, Reachable e := by
  induction calls with
  | nil => intro stats _ h; exact h
  | cons c cs ih =>
    intro stats hwf h
    refine ih _ (wf_aggregate stats c.line c.column c.day0 c.value0 hwf) ?_
    unfold aggregate
    simp only
    rw [aggregateEntry_eq_upsert _ _ _ hwf]
    exact reachable_upsert _ _ _ h

theorem upsert_keeps (stats : StatSet) (d : Int) (v : ℚ) (h : StatSet.WF stats) :
    ∀ e ∈ stats, (e.day ≠ d → e ∈ upsert stats d v) ∧ (e.day = d → e.add v ∈ upsert stats d v) := by
  induction stats with
  | nil => intro e he; cases he
  | cons x xs ih =>
    have hw := List.pairwise_cons.mp h
    intro e he
    unfold upsert
    by_cases h1 : x.day < d
    · rw [if_pos h1]
      rcases List.mem_cons.mp he with rfl | he
      · exact ⟨fun _ => List.mem_cons_self _ _, fun hd => by omega⟩
      · exact ⟨fun hd => List.mem_cons_of_mem _ ((ih hw.2 e he).1 hd),
          fun hd => List.mem_cons_of_mem _ ((ih hw.2 e he).2 hd)⟩
    · by_cases h2 : d < x.day
      · rw [if_neg h1, if_pos h2]
        refine ⟨fun _ => List.mem_cons_of_mem _ he, fun hd => ?_⟩
        rcases List.mem_cons.mp he with rfl | he
        · omega
        · have := hw.1 e he; omega
      · rw [if_neg h1, if_neg h2]
        rcases List.mem_cons.mp he with rfl | he
        · exact ⟨fun hd => by omega, fun _ => List.mem_cons_self _ _⟩
        · have := hw.1 e he
          exact ⟨fun _ => List.mem_cons_of_mem _ he, fun hd => by omega⟩

theorem length_le_upsert (stats : StatSet) (d : Int) (v : ℚ) :
    stats.length ≤ (upsert stats d v).length := by
  induction stats with
  | nil => simp [upsert]
  | cons x xs ih =>
    unfold upsert
    split_ifs <;> simp [ih]

theorem mem_upsert_other (stats : StatSet) (d : Int) (v : ℚ) :
    ∀ e : DayStats, e.day ≠ d → (e ∈ upsert stats d v ↔ e ∈ stats) := by
  induction stats with
  | nil =>
    intro e hd
    simp only [upsert, List.mem_singleton, List.not_mem_nil, iff_false]
    intro he
    exact hd (by rw [he]; rfl)
  | cons x xs ih =>
    intro e hd
    unfold upsert
    by_cases h1 : x.day < d
    · rw [if_pos h1]
      simp only [List.mem_cons, ih e hd]
    · by_cases h2 : d < x.day
      · rw [if_neg h1, if_pos h2]
        simp only [List.mem_cons]
        constructor
        · rintro (he | he)
          · exact absurd (by rw [he]; rfl) hd
          · exact he
        · intro he; exact Or.inr he
      · rw [if_neg h1, if_neg h2]
        have hxd : x.day = d := by omega
        simp only [List.mem_cons]
        constructor
        · rintro (he | he)
          · exact absurd (by rw [he, add_day]; exact hxd) hd
          · exact Or.inr he
        · rintro (he | he)
          · exact absurd (by rw [he]; exact hxd) hd
          · exact Or.inr he

theorem entryOf_cons (x : DayStats) (xs : StatSet) (d : Int) :
    entryOf (x :: xs) d = if x.day = d then some x else entryOf xs d := by
  unfold entryOf
  rw [List.find?_cons]
  by_cases h : x.day = d
  · simp [h]
  · simp [h]

theorem entryOf_none_of_lt (stats : StatSet) (d : Int) (h : ∀ e ∈ stats, d < e.day) :
    entryOf stats d = none := by
  unfold entryOf
  rw [List.find?_eq_none]
  intro e he
  have := h e he
  simp only [decide_eq_true_eq]
  omega

theorem entryOf_upsert_same (stats : StatSet) (d : Int) (v : ℚ) (h : StatSet.WF stats) :
    entryOf (upsert stats d v) d = foldInto d (entryOf stats d) v := by
  induction stats with
  | nil => simp [upsert, entryOf, foldInto, ctor]
  | cons x xs ih =>
    have hw := List.pairwise_cons.mp h
    unfold upsert
    by_cases h1 : x.day < d
    · have hne : ¬ x.day = d := by omega
      rw [if_pos h1, entryOf_cons, entryOf_cons, if_neg hne, if_neg hne, ih hw.2]
    · by_cases h2 : d < x.day
      · have hne : ¬ x.day = d := by omega
        have hnone : entryOf xs d = none :=
          entryOf_none_of_lt xs d (fun e he => lt_trans h2 (hw.1 e he))
        rw [if_neg h1, if_pos h2, entryOf_cons, entryOf_cons, if_neg hne, hnone]
        simp [ctor, foldInto]
      · have hxd : x.day = d := by omega
        rw [if_neg h1, if_neg h2, entryOf_cons, entryOf_cons, if_pos hxd,
          if_pos (by rw [add_day]; exact hxd)]
        rfl

theorem entryOf_upsert_other (stats : StatSet) (d : Int) (v : ℚ) (d' : Int) (hd : d' ≠ d) :
    entryOf (upsert stats d v) d' = entryOf stats d' := by
  induction stats with
  | nil =>
    have : ¬ (ctor d v).day = d' := fun h => hd h.symm
    rw [upsert, entryOf_cons, if_neg this]
  | cons x xs ih =>
    unfold upsert
    by_cases h1 : x.day < d
    · rw [if_pos h1, entryOf_cons, entryOf_cons, ih]
    · by_cases h2 : d < x.day
      · have : ¬ (ctor d v).day = d' := fun h => hd h.symm
        rw [if_neg h1, if_pos h2, entryOf_cons, if_neg this]
      · have hxd : x.day = d := by omega
        have e1 : ¬ x.day = d' := by omega
        have e2 : ¬ (x.add v).day = d' := by rw [add_day]; exact e1
        rw [if_neg h1, if_neg h2, entryOf_cons, entryOf_cons, if_neg e1, if_neg e2]

theorem entryOf_aggregateAll (calls : List Call) (d : Int) :
    ∀ stats : StatSet, StatSet.WF stats →
      entryOf (aggregateAll stats calls) d
        = (valuesOf calls d).foldl (foldInto d) (entryOf stats d) := by
  induction calls with
  | nil => intro stats _; rfl
  | cons c cs ih =>
    intro stats hwf
    have hstep : aggregateAll stats (c :: cs)
        = aggregateAll (aggregate stats c.line c.column c.day0 c.value0) cs := rfl
    rw [hstep, ih _ (wf_aggregate stats c.line c.column c.day0 c.value0 hwf)]
    have hagg : aggregate stats c.line c.column c.day0 c.value0
        = upsert stats (parseLine c.line c.column c.day0 c.value0).1
            (parseLine c.line c.column c.day0 c.value0).2 := by
      unfold aggregate
      simp only
      rw [aggregateEntry_eq_upsert _ _ _ hwf]
    rw [hagg]
    by_cases hd : (parseLine c.line c.column c.day0 c.value0).1 = d
    · have hv : valuesOf (c :: cs) d
          = (parseLine c.line c.column c.day0 c.value0).2 :: valuesOf cs d := by
        simp [valuesOf, hd]
      rw [hv, List.foldl_cons, ← hd, entryOf_upsert_same _ _ _ hwf]
    · have hv : valuesOf (c :: cs) d = valuesOf cs d := by
        simp [valuesOf, hd]
      rw [hv, entryOf_upsert_other _ _ _ _ (fun h => hd h.symm)]

theorem foldl_foldInto_some (d : Int) (vs : List ℚ) :
    ∀ r : DayStats, vs.foldl (foldInto d) (some r) = some (vs.foldl add r) := by
  induction vs with
  | nil => intro r; rfl
  | cons a t ih => intro r; exact ih (r.add a)

theorem foldl_foldInto_none (d : Int) (vs : List ℚ) :
    vs.foldl (foldInto d) none = foldValues d vs := by
  cases vs with
  | nil => rfl
  | cons a t => exact foldl_foldInto_some d t (ctor d a)

theorem entryOf_of_mem (stats : StatSet) (h : StatSet.WF stats) :
    ∀ e ∈ stats, entryOf stats e.day = some e := by
  induction stats with
  | nil => intro e he; cases he
  | cons x xs ih =>
    have hw := List.pairwise_cons.mp h
    intro e he
    rw [entryOf_cons]
    rcases List.mem_cons.mp he with rfl | he
    · rw [if_pos rfl]
    · have := hw.1 e he
      rw [if_neg (by omega)]
      exact ih hw.2 e he

theorem mem_of_entryOf (stats : StatSet) (d : Int) (e : DayStats)
    (h : entryOf stats d = some e) : e ∈ stats ∧ e.day = d := by
  unfold entryOf at h
  have h1 := List.mem_of_find?_eq_some h
  have h2 := List.find?_some h
  exact ⟨h1, by simpa using h2⟩

/-! ## Parsing, the read loop and the report: claims C11 to C14 and C17 -/

theorem parse_example_first (day0 : Int) (value0 : ℚ) :
    parseLine "0\t0.000\t0.000\t0.274\t0.000\t0.000\t10000\t9900\t100\t0\t0" 6 day0 value0
      = (0, 10000) :=
  parseLine_tokens "0\t0.000\t0.000\t0.274\t0.000\t0.000\t10000\t9900\t100\t0\t0"
    ['0'] 0
    [⟨'\t', "0.000".toList, 0⟩, ⟨'\t', "0.000".toList, 0⟩, ⟨'\t', "0.274".toList, 274 / 1000⟩,
     ⟨'\t', "0.000".toList, 0⟩, ⟨'\t', "0.000".toList, 0⟩]
    ⟨'\t', "10000".toList, 10000⟩ "\t9900\t100\t0\t0".toList day0 value0
    (by decide) (by decide!) (by decide!) (by decide)

theorem parse_example_second (day0 : Int) (value0 : ℚ) :
    parseLine "0\t0.010\t0.000\t0.274\t0.000\t0.000\t9999\t9900\t99\t0\t0" 6 day0 value0
      = (0, 9999) :=
  parseLine_tokens "0\t0.010\t0.000\t0.274\t0.000\t0.000\t9999\t9900\t99\t0\t0"
    ['0'] 0
    [⟨'\t', "0.010".toList, 1 / 100⟩, ⟨'\t', "0.000".toList, 0⟩, ⟨'\t', "0.274".toList, 274 / 1000⟩,
     ⟨'\t', "0.000".toList, 0⟩, ⟨'\t', "0.000".toList, 0⟩]
    ⟨'\t', "9999".toList, 9999⟩ "\t9900\t99\t0\t0".toList day0 value0
    (by decide) (by decide!) (by decide!) (by decide)

theorem parse_example_first_blanks (day0 : Int) (value0 : ℚ) :
    parseLine "0 0.000 0.000 0.274 0.000 0.000 10000 9900 100 0 0" 6 day0 value0
      = (0, 10000) :=
  parseLine_tokens "0 0.000 0.000 0.274 0.000 0.000 10000 9900 100 0 0"
    ['0'] 0
    [⟨' ', "0.000".toList, 0⟩, ⟨' ', "0.000".toList, 0⟩, ⟨' ', "0.274".toList, 274 / 1000⟩,
     ⟨' ', "0.000".toList, 0⟩, ⟨' ', "0.000".toList, 0⟩]
    ⟨' ', "10000".toList, 10000⟩ " 9900 100 0 0".toList day0 value0
    (by decide) (by decide!) (by decide!) (by decide)

theorem parse_example_second_blanks (day0 : Int) (value0 : ℚ) :
    parseLine "0 0.010 0.000 0.274 0.000 0.000 9999 9900 99 0 0" 6 day0 value0
      = (0, 9999) :=
  parseLine_tokens "0 0.010 0.000 0.274 0.000 0.000 9999 9900 99 0 0"
    ['0'] 0
    [⟨' ', "0.010".toList, 1 / 100⟩, ⟨' ', "0.000".toList, 0⟩, ⟨' ', "0.274".toList, 274 / 1000⟩,
     ⟨' ', "0.000".toList, 0⟩, ⟨' ', "0.000".toList, 0⟩]
    ⟨' ', "9999".toList, 9999⟩ " 9900 99 0 0".toList day0 value0
    (by decide) (by decide!) (by decide!) (by decide)

theorem readLoop_two_lines (l₁ l₂ : String) (column day0 : Int) (value0 v₁ v₂ : ℚ) (d : Int)
    (h₁ : parseLine l₁ column day0 value0 = (d, v₁))
    (h₂ : parseLine l₂ column day0 value0 = (d, v₂))
    (s₁ : 10 < l₁.utf8ByteSize) (s₂ : 10 < l₂.utf8ByteSize) :
    readLoop [l₁, l₂] column day0 value0 = [(ctor d v₁).add v₂] := by
  have e1 : aggregate [] l₁ column day0 value0 = [ctor d v₁] := by
    unfold aggregate
    simp only [h₁]
    rfl
  have e2 : aggregate [ctor d v₁] l₂ column day0 value0 = [(ctor d v₁).add v₂] := by
    unfold aggregate
    simp only [h₂]
    rw [aggregateEntry_eq_upsert _ _ _ (by simp [StatSet.WF])]
    simp [upsert, ctor]
  simp only [readLoop, List.foldl, gt_iff_lt, s₁, s₂, if_true, e1, e2]

/-- C13: from an empty set and with column argument 6, the two lines of the
documented format with day 0 and `N` column 10000 and 9999 (tab separated, and
also blank separated) yield a single record for day 0 with `count = 2`,
`mean = 9999.5`, `sum = 19999`, `min = 9999`, `max = 10000`; `print` with
`startDay = 0` emits this record, so `processFile` writes the header and the
line of this record. -/
theorem C13_end_to_end_example (sqrt : ℚ → ℚ) (day0 : Int) (value0 : ℚ) :
    readLoop ["0\t0.000\t0.000\t0.274\t0.000\t0.000\t10000\t9900\t100\t0\t0",
              "0\t0.010\t0.000\t0.274\t0.000\t0.000\t9999\t9900\t99\t0\t0"] 6 day0 value0
        = [{ day := 0, sum := 19999, mean := 19999 / 2, var := 1 / 2, count := 2,
             min := 9999, max := 10000 }]
    ∧ readLoop ["0 0.000 0.000 0.274 0.000 0.000 10000 9900 100 0 0",
                "0 0.010 0.000 0.274 0.000 0.000 9999 9900 99 0 0"] 6 day0 value0
        = [{ day := 0, sum := 19999, mean := 19999 / 2, var := 1 / 2, count := 2,
             min := 9999, max := 10000 }]
    ∧ printedEntries
        [{ day := 0, sum := 19999, mean := 19999 / 2, var := 1 / 2, count := 2,
           min := 9999, max := 10000 }] 0
        = [{ day := 0, sum := 19999, mean := 19999 / 2, var := 1 / 2, count := 2,
             min := 9999, max := 10000 }]
    ∧ processFile sqrt
        ["0\t0.000\t0.000\t0.274\t0.000\t0.000\t10000\t9900\t100\t0\t0",
         "0\t0.010\t0.000\t0.274\t0.000\t0.000\t9999\t9900\t99\t0\t0"] 6 0 day0 value0
        = Item.text "#day, count, mean, SD, main, max, sum, 95%ci\n" ::
          (operatorOut sqrt
            { day := 0, sum := 19999, mean := 19999 / 2, var := 1 / 2, count := 2,
              min := 9999, max := 10000 } ++ [Item.endl]) := by
  have hrec : (ctor 0 10000).add 9999
      = { day := 0, sum := 19999, mean := 19999 / 2, var := 1 / 2, count := 2,
          min := 9999, max := 10000 } := by decide!
  have h1 := readLoop_two_lines _ _ 6 day0 value0 10000 9999 0
    (parse_example_first day0 value0) (parse_example_second day0 value0)
    (by decide) (by decide)
  have h2 := readLoop_two_lines _ _ 6 day0 value0 10000 9999 0
    (parse_example_first_blanks day0 value0) (parse_example_second_blanks day0 value0)
    (by decide) (by decide)
  rw [hrec] at h1 h2
  refine ⟨h1, h2, by decide!, ?_⟩
  unfold processFile
  rw [h1]
  rfl

/-- C17: in the read loop of `processFile` a line is passed to `aggregate`
exactly when its length exceeds 10: a line of at most 10 characters leaves the
set unchanged, a line of 11 or more characters is aggregated (and changes the
set).  The line `5 1.0 2.0` (tab separated, 9 characters) parses to day 5 and
value 1 with column 1, and is nevertheless dropped. -/
theorem C17_length_filter (lines : List String) (line : String) (column day0 : Int)
    (value0 : ℚ) :
    (line.utf8ByteSize ≤ 10 →
      readLoop (lines ++ [line]) column day0 value0 = readLoop lines column day0 value0)
    ∧ (11 ≤ line.utf8ByteSize →
      readLoop (lines ++ [line]) column day0 value0
          = aggregate (readLoop lines column day0 value0) line column day0 value0
        ∧ readLoop (lines ++ [line]) column day0 value0 ≠ readLoop lines column day0 value0)
    ∧ "5\t1.0\t2.0".utf8ByteSize = 9
    ∧ parseLine "5\t1.0\t2.0" 1 day0 value0 = (5, 1)
    ∧ readLoop (lines ++ ["5\t1.0\t2.0"]) column day0 value0
        = readLoop lines column day0 value0 := by
  refine ⟨?_, ?_, by decide, ?_, ?_⟩
  · intro h
    rw [readLoop_append, if_neg (by omega)]
  · intro h
    rw [readLoop_append, if_pos (by omega)]
    exact ⟨rfl, aggregate_ne _ _ _ _ _ (wf_readLoop _ _ _ _)⟩
  · exact parseLine_tokens "5\t1.0\t2.0" ['5'] 5 [] ⟨'\t', "1.0".toList, 1⟩ "\t2.0".toList
      day0 value0 (by decide) (by decide!) (by decide!) (by decide)
  · rw [readLoop_append, if_neg (by decide)]


/-- A data token beyond the range of `double`: on `5 1e400 2.5 3.5` the first
conversion fails and stores `DBL_MAX`, the later extractions do nothing, and
`DBL_MAX` is what column 2 folds.  Such a token is not a well-formed field. -/
theorem parse_overflow_example :
    parseLine "5\t1e400\t2.5\t3.5" 2 0 0 = (5, dblMax)
    ∧ (parseState "5\t1e400\t2.5\t3.5" 2 0 0).1.fail = true
    ∧ ¬ Field.ok ⟨'\t', "1e400".toList, 10 ^ 400⟩
    ∧ parseLine "5\t-1e400\t2.5\t3.5" 2 0 0 = (5, -dblMax)
    ∧ parseLine "5\t1.7976931348623157e308\t2.5" 1 0 0
        = (5, 17976931348623157 * 10 ^ 292) := by
  decide!

/-- C11 as stated fails: on the line `5 1.5 2.5 3.5` column index 1 folds
`1.5`, the data token number 0, not `2.5`; and column index 0 folds what
`value` held before the call (here 42), not the first data column. -/
theorem C11_counterexample :
    aggregate [] "5\t1.5\t2.5\t3.5" 1 0 0 = [ctor 5 (3 / 2)]
    ∧ aggregate [] "5\t1.5\t2.5\t3.5" 1 0 0 ≠ aggregateEntry [] 5 (5 / 2)
    ∧ aggregate [] "5\t1.5\t2.5\t3.5" 0 0 42 = [ctor 5 42]
    ∧ aggregate [] "5\t1.5\t2.5\t3.5" 0 0 42 ≠ aggregateEntry [] 5 (3 / 2) := by
  decide!

/-- C11, amended: for every line made of an integer day token `dayTok` and
data tokens (numbers within the range of `double`, as `Field.ok` requires),
and every column index `c ≥ 1` with at least `c` data tokens,
`aggregate(stats, line, c)` folds the value of data token number `c - 1`
(counting from zero; its decimal value, rounding aside) under the line's day:
the column index counts the day column as column 0.  Here `fields` are the data tokens before `f`, so `f` is
token number `fields.length` and `c = fields.length + 1`; with `fields = []`,
column index 1 selects the first data column. -/
theorem C11_column_selects_preceding_token (stats : StatSet) (line : String)
    (dayTok : List Char) (d : Int) (fields : List Field) (f : Field) (tail : List Char)
    (day0 : Int) (value0 : ℚ)
    (hline : line.toList = dayTok ++ fieldsText (fields ++ [f]) tail)
    (hday : dayToken dayTok d) (hok : ∀ g ∈ fields ++ [f], g.ok)
    (htail : tailOk tail = true) :
    parseLine line ((fields.length + 1 : Nat) : Int) day0 value0 = (d, f.value)
    ∧ aggregate stats line ((fields.length + 1 : Nat) : Int) day0 value0
        = aggregateEntry stats d f.value := by
  have hp := parseLine_tokens line dayTok d fields f tail day0 value0 hline hday hok htail
  refine ⟨hp, ?_⟩
  unfold aggregate
  simp only [hp]

/-- Witness for C11: on `5 1.5 2.5 3.5` column index 2 folds `2.5`, the data
token number 1. -/
theorem C11_column_selects_preceding_token_witness :
    parseLine "5\t1.5\t2.5\t3.5" 2 0 0 = (5, 5 / 2)
    ∧ aggregate [ctor 0 1] "5\t1.5\t2.5\t3.5" 2 0 0 = aggregateEntry [ctor 0 1] 5 (5 / 2) :=
  C11_column_selects_preceding_token [ctor 0 1] "5\t1.5\t2.5\t3.5" ['5'] 5
    [⟨'\t', "1.5".toList, 3 / 2⟩] ⟨'\t', "2.5".toList, 5 / 2⟩ "\t3.5".toList 0 0
    (by decide) (by decide!) (by decide!) (by decide)

/-- C14: `print` writes a header and then, for each entry with
`day ≥ startDay`, the fields day, count, mean, sd, min, max, sum, ci in this
order, separated by `, ` and ended by `std::endl`.  The header the code writes
reads `main` where the claim has `min`: it is not the text of the claim. -/
theorem C14_print_header_and_field_order (sqrt : ℚ → ℚ) (stats : StatSet) (startDay : Int) :
    print sqrt stats startDay
      = Item.text "#day, count, mean, SD, main, max, sum, 95%ci\n" ::
        ((printedEntries stats startDay).map
          (fun e =>
            [Item.int e.day, Item.text ", ", Item.int e.count, Item.text ", ",
             Item.dbl e.mean, Item.text ", ", Item.dbl (e.sd sqrt), Item.text ", ",
             Item.dbl e.min, Item.text ", ", Item.dbl e.max, Item.text ", ",
             Item.dbl e.sum, Item.text ", ", Item.dbl (e.ci sqrt), Item.endl])).flatten
    ∧ (print sqrt stats startDay).head?
        = some (Item.text "#day, count, mean, SD, main, max, sum, 95%ci\n")
    ∧ (print sqrt stats startDay).head?
        ≠ some (Item.text "#day, count, mean, SD, min, max, sum, 95%ci\n")
    ∧ (print sqrt stats startDay).head?
        ≠ some (Item.text "#day, count, mean, SD, min, max, sum, 95%ci") := by
  refine ⟨?_, rfl, ?_, ?_⟩
  · rw [print_eq]
    rfl
  · simp only [print, List.head?_cons]
    decide
  · simp only [print, List.head?_cons]
    decide

/-! ## Counts, days and the derived statistics: claims C15, C16 and C18 -/

/-- C15: in every set built from the empty set by `aggregate` calls each
record has `count ≥ 1`; a further `aggregate` call keeps, for every day
present, a record of that day whose count is not smaller: it is the same
record when the call folds another day, and its count is larger by exactly 1
when the call folds this day.  No record is removed: the number of records
does not decrease. -/
theorem C15_counts_never_shrink (calls : List Call) (line : String) (column day0 : Int)
    (value0 : ℚ) :
    (∀ e ∈ aggregateAll [] calls, 1 ≤ e.count)
    ∧ (∀ e ∈ aggregateAll [] calls,
        ∃ e' ∈ aggregate (aggregateAll [] calls) line column day0 value0,
          e'.day = e.day ∧ e.count ≤ e'.count
          ∧ (e.day = (parseLine line column day0 value0).1 → e'.count = e.count + 1)
          ∧ (e.day ≠ (parseLine line column day0 value0).1 → e' = e))
    ∧ (aggregateAll [] calls).length
        ≤ (aggregate (aggregateAll [] calls) line column day0 value0).length := by
  have hw : StatSet.WF (aggregateAll [] calls) := wf_aggregateAll calls [] wf_nil
  have hagg : aggregate (aggregateAll [] calls) line column day0 value0
      = upsert (aggregateAll [] calls) (parseLine line column day0 value0).1
          (parseLine line column day0 value0).2 := by
    unfold aggregate
    simp only
    rw [aggregateEntry_eq_upsert _ _ _ hw]
  refine ⟨?_, ?_, ?_⟩
  · intro e he
    exact count_pos_of_reachable e
      (reachable_aggregateAll calls [] wf_nil (fun x hx => by cases hx) e he)
  · intro e he
    rw [hagg]
    have hk := upsert_keeps (aggregateAll [] calls) (parseLine line column day0 value0).1
      (parseLine line column day0 value0).2 hw e he
    by_cases hd : e.day = (parseLine line column day0 value0).1
    · refine ⟨e.add (parseLine line column day0 value0).2, hk.2 hd, add_day _ _, ?_, ?_, ?_⟩
      · rw [add_count]; omega
      · intro _; exact add_count _ _
      · intro hne; exact absurd hd hne
    · exact ⟨e, hk.1 hd, rfl, le_refl _, fun h => absurd h hd, fun _ => rfl⟩
  · rw [hagg]
    exact length_le_upsert _ _ _

/-- C16: after any finite sequence of `aggregate` calls on the empty set, the
record of day `d` is the fold of the values that the calls of day `d` supply,
in call order (none when no call has day `d`), so it is the same for two call
sequences that supply the same values for `d`; every record of the set is such
a fold for its own day.  A call of another day leaves the record of `d` as it
is, in all fields. -/
theorem C16_days_are_independent (calls calls' : List Call) (d : Int) (stats : StatSet)
    (hwf : StatSet.WF stats) (line : String) (column day0 : Int) (value0 : ℚ) :
    entryOf (aggregateAll [] calls) d = foldValues d (valuesOf calls d)
    ∧ (∀ e ∈ aggregateAll [] calls, e.day = d →
        ∃ v vs, valuesOf calls d = v :: vs ∧ e = foldFrom d v vs)
    ∧ ((∃ c ∈ calls, (parseLine c.line c.column c.day0 c.value0).1 = d) →
        ∃ v vs, valuesOf calls d = v :: vs ∧ foldFrom d v vs ∈ aggregateAll [] calls)
    ∧ (valuesOf calls' d = valuesOf calls d →
        entryOf (aggregateAll [] calls') d = entryOf (aggregateAll [] calls) d)
    ∧ ((parseLine line column day0 value0).1 ≠ d →
        entryOf (aggregate stats line column day0 value0) d = entryOf stats d
        ∧ ∀ e : DayStats, e.day = d →
            (e ∈ aggregate stats line column day0 value0 ↔ e ∈ stats)) := by
  have hent : ∀ cs : List Call, entryOf (aggregateAll [] cs) d = foldValues d (valuesOf cs d) := by
    intro cs
    rw [entryOf_aggregateAll cs d [] wf_nil]
    exact foldl_foldInto_none d _
  have hw : StatSet.WF (aggregateAll [] calls) := wf_aggregateAll calls [] wf_nil
  refine ⟨hent calls, ?_, ?_, ?_, ?_⟩
  · intro e he hd
    have h1 := entryOf_of_mem _ hw e he
    rw [hd, hent calls] at h1
    cases hv : valuesOf calls d with
    | nil => rw [hv] at h1; cases h1
    | cons v vs =>
      rw [hv] at h1
      exact ⟨v, vs, rfl, (Option.some.inj h1).symm⟩
  · rintro ⟨c, hc, hcd⟩
    cases hv : valuesOf calls d with
    | nil =>
      have : (parseLine c.line c.column c.day0 c.value0).2 ∈ valuesOf calls d := by
        unfold valuesOf
        exact List.mem_map.mpr ⟨c, List.mem_filter.mpr ⟨hc, by simpa using hcd⟩, rfl⟩
      rw [hv] at this
      cases this
    | cons v vs =>
      have h1 := hent calls
      rw [hv] at h1
      exact ⟨v, vs, rfl, (mem_of_entryOf _ _ _ h1).1⟩
  · intro hv
    rw [hent calls', hent calls, hv]
  · intro hne
    have hagg : aggregate stats line column day0 value0
        = upsert stats (parseLine line column day0 value0).1
            (parseLine line column day0 value0).2 := by
      unfold aggregate
      simp only
      rw [aggregateEntry_eq_upsert _ _ _ hwf]
    rw [hagg]
    refine ⟨entryOf_upsert_other _ _ _ _ (fun h => hne h.symm), ?_⟩
    intro e hed
    exact mem_upsert_other _ _ _ e (by rw [hed]; exact fun h => hne h.symm)

/-- Witness for C16: three lines, days 5, 0, 5, with column 1; the record of
day 5 is the fold of `1.5` and `2.5`, untouched by the line of day 0. -/
theorem C16_days_are_independent_witness :
    entryOf (aggregateAll []
        [⟨"5\t1.5\t9", 1, 0, 0⟩, ⟨"0\t7.0\t9", 1, 0, 0⟩, ⟨"5\t2.5\t9", 1, 0, 0⟩]) 5
      = some (foldFrom 5 (3 / 2) [5 / 2])
    ∧ valuesOf [⟨"5\t1.5\t9", 1, 0, 0⟩, ⟨"0\t7.0\t9", 1, 0, 0⟩, ⟨"5\t2.5\t9", 1, 0, 0⟩] 5
      = [3 / 2, 5 / 2]
    ∧ entryOf (aggregate [ctor 5 (3 / 2)] "0\t7.0\t9" 1 0 0) 5 = entryOf [ctor 5 (3 / 2)] 5 :=
  ⟨by
    have h := (C16_days_are_independent
      [⟨"5\t1.5\t9", 1, 0, 0⟩, ⟨"0\t7.0\t9", 1, 0, 0⟩, ⟨"5\t2.5\t9", 1, 0, 0⟩] [] 5
      [ctor 5 (3 / 2)] (by decide) "0\t7.0\t9" 1 0 0).1
    rw [h]
    decide!,
   by decide!,
   ((C16_days_are_independent
      [⟨"5\t1.5\t9", 1, 0, 0⟩, ⟨"0\t7.0\t9", 1, 0, 0⟩, ⟨"5\t2.5\t9", 1, 0, 0⟩] [] 5
      [ctor 5 (3 / 2)] (by decide) "0\t7.0\t9" 1 0 0).2.2.2.2 (by decide!)).1⟩

theorem var_zero_of_single (r : DayStats) (h : Reachable r) (hc : r.count = 1) :
    r.var = 0 := by
  obtain ⟨l, hl⟩ := summarises_of_reachable r h
  have hlen : l.length = 1 := by
    have := hl.count_eq
    omega
  obtain ⟨a, rfl⟩ := List.length_eq_one.mp hlen
  have hm := hl.mean_eq
  have hv := hl.var_eq
  simp only [List.length_singleton, Nat.cast_one, mul_one, List.sum_singleton,
    List.map_cons, List.map_nil, one_mul] at hm hv
  rw [hv, hm]
  ring

/-- C18: for every record reachable by folding, `count ≥ 1` and
`var / count ≥ 0`, so `sd()` takes the square root of a non-negative number,
the population variance `var / count` (division by `count`, not `count - 1`).
With a square root into an ordered field `K` that is correct on the
non-negative rationals (non-negative, squaring back to its argument; the real
square root is one): `sd() ≥ 0`, `sd()^2 = var / count`,
`ci() = z * sd() / sqrt(count)` with `z = 2.403`, and
`ci()^2 * count = z^2 * var / count`; for a record with a single observation
`sd()` and `ci()` are 0. -/
theorem C18_sd_and_ci {K : Type} [LinearOrderedField K] (sqrt : ℚ → K)
    (hsqrt : ∀ x : ℚ, 0 ≤ x → 0 ≤ sqrt x ∧ sqrt x ^ 2 = (x : K))
    (r : DayStats) (hr : Reachable r) :
    1 ≤ r.count
    ∧ 0 ≤ r.var / (r.count : ℚ)
    ∧ r.sd sqrt = sqrt (r.var / (r.count : ℚ))
    ∧ 0 ≤ r.sd sqrt
    ∧ r.sd sqrt ^ 2 = (r.var : K) / (r.count : K)
    ∧ r.ci sqrt = (z : K) * r.sd sqrt / sqrt (r.count : ℚ)
    ∧ z = 2403 / 1000
    ∧ r.ci sqrt ^ 2 * (r.count : K) = (z : K) ^ 2 * ((r.var : K) / (r.count : K))
    ∧ (r.count = 1 → r.sd sqrt = 0 ∧ r.ci sqrt = 0) := by
  have hc : 1 ≤ r.count := count_pos_of_reachable r hr
  have hcq : (0 : ℚ) < (r.count : ℚ) := by exact_mod_cast (by omega : 0 < r.count)
  have hcK : (r.count : K) ≠ 0 := by
    have : (0 : K) < (r.count : K) := by exact_mod_cast (by omega : 0 < r.count)
    exact this.ne'
  obtain ⟨l, hl⟩ := summarises_of_reachable r hr
  have hv : 0 ≤ r.var / (r.count : ℚ) := div_nonneg (summarises_var_nonneg hl) hcq.le
  have h1 := hsqrt (r.var / (r.count : ℚ)) hv
  have h2 := hsqrt (r.count : ℚ) hcq.le
  have hsd : r.sd sqrt = sqrt (r.var / (r.count : ℚ)) := rfl
  have hci : r.ci sqrt = (z : K) * r.sd sqrt / sqrt (r.count : ℚ) := rfl
  have hsq : r.sd sqrt ^ 2 = (r.var : K) / (r.count : K) := by
    rw [hsd, h1.2]
    push_cast
    rfl
  have hcnt : sqrt (r.count : ℚ) ^ 2 = (r.count : K) := by
    rw [h2.2]
    push_cast
    rfl
  refine ⟨hc, hv, hsd, by rw [hsd]; exact h1.1, hsq, hci, rfl, ?_, ?_⟩
  · rw [hci, div_pow, mul_pow, hcnt, hsq]
    field_simp
    ring
  · intro hone
    have hvar := var_zero_of_single r hr hone
    have hsd0 : r.sd sqrt = 0 := by
      have : r.sd sqrt ^ 2 = 0 := by rw [hsq, hvar]; simp
      exact pow_eq_zero_iff (two_ne_zero) |>.mp this
    exact ⟨hsd0, by rw [hci, hsd0]; simp⟩

/-- Witness for C18: the record of `10000` and `9999` (count 2, not a square)
with the real square root. -/
theorem C18_sd_and_ci_witness :
    ((ctor 0 10000).add 9999).sd (fun x : ℚ => Real.sqrt (x : ℝ)) ^ 2
        = (((ctor 0 10000).add 9999).var : ℝ) / (((ctor 0 10000).add 9999).count : ℝ)
    ∧ ((ctor 0 10000).add 9999).ci (fun x : ℚ => Real.sqrt (x : ℝ)) ^ 2
          * (((ctor 0 10000).add 9999).count : ℝ)
        = (z : ℝ) ^ 2
          * ((((ctor 0 10000).add 9999).var : ℝ) / (((ctor 0 10000).add 9999).count : ℝ))
    ∧ ((ctor 0 10000).add 9999).count = 2 :=
  ⟨(C18_sd_and_ci (fun x : ℚ => Real.sqrt (x : ℝ))
      (fun x hx => ⟨Real.sqrt_nonneg _, Real.sq_sqrt (by exact_mod_cast hx)⟩)
      ((ctor 0 10000).add 9999) (Reachable.add _ _ (Reachable.ctor 0 10000))).2.2.2.2.1,
   (C18_sd_and_ci (fun x : ℚ => Real.sqrt (x : ℝ))
      (fun x hx => ⟨Real.sqrt_nonneg _, Real.sq_sqrt (by exact_mod_cast hx)⟩)
      ((ctor 0 10000).add 9999) (Reachable.add _ _ (Reachable.ctor 0 10000))).2.2.2.2.2.2.2.1,
   rfl⟩

end ColSummary
